import Mathlib

/-!
Verification of the layout-aware date/payment-code association pipeline of the
`qr_decoder` repository (`src/lib.rs`).

Modelling conventions, fixed once here:

* Strings are modelled as `String` / `List Char`.  The Rust code matches text with
  the `regex` crate; each compiled regular expression is embedded as an executable
  matcher on `List Char`.  The regex class `\d` (Unicode decimal digits) is modelled
  as the ASCII digits `0`-`9` (`Char.isDigit`), the reading intended throughout the
  source; `\s` and Rust's `char::is_whitespace` are modelled by the full Unicode
  White_Space set (`isWsChar` below).
* CSS numeric values are parsed by the source into `f64`; every parsed token is a
  plain decimal numeral, which we model exactly as a rational number (`ℚ`).
* Proximity scores (`f64`, computed as `sqrt(top² + left²)` with `f64::INFINITY`
  when an axis is missing) are modelled in `WithTop ℚ` by the squared distance
  `top² + left²`, with `⊤` for infinity: `Real.sqrt` is strictly monotone on
  `[0, ∞)`, so every comparison (`<`, `partial_cmp`-based sorting, minimisation)
  performed by the source on scores agrees with the comparison of the squares.
  No claim mentions the numeric value of a score, only their order.
* The parsed HTML document (produced by the out-of-scope `scraper`/`html5ever`
  parse of the `mutool` output) is modelled as a node tree `HNode`; an element
  together with its chain of strict ancestors is an `ECtx`.
* `HashMap` is modelled as an association list with insert-or-replace update;
  its iteration order (arbitrary in Rust) is modelled by insertion order, and no
  theorem below depends on that order except through properties that are
  order-insensitive (set of entries, sortedness of the final sorted output).
-/

/-- Unicode White_Space characters: the set matched by the `regex` crate's `\s`
and by Rust's `char::is_whitespace` / `str::trim`. -/
def isWsChar (c : Char) : Bool :=
  c ∈ ['\x20', '\t', '\n', '\x0b', '\x0c', '\r', '\u0085', '\u00a0', '\u1680',
       '\u2000', '\u2001', '\u2002', '\u2003', '\u2004', '\u2005', '\u2006',
       '\u2007', '\u2008', '\u2009', '\u200a', '\u2028', '\u2029', '\u202f',
       '\u205f', '\u3000']

/-- Rust `str::trim` on a character list. -/
def trimWs (l : List Char) : List Char :=
  ((l.dropWhile isWsChar).reverse.dropWhile isWsChar).reverse

/-- Rust `str::trim` on a `String`. -/
def trimStr (s : String) : String :=
  String.mk (trimWs s.data)

/-- Embeds `clean_text` (src/lib.rs:210-214): every whitespace character is removed
(`\s+` replaced by the empty string), then the result is trimmed (a no-op after
the removal, kept for faithfulness). -/
def clean_text (s : String) : String :=
  String.mk (trimWs (s.data.filter (fun c => !isWsChar c)))

/-- Consumes exactly `n` characters satisfying `p` from the front of `l`,
returning them and the rest.  Models a counted regex chunk such as `\d{n}`. -/
def takeCount (p : Char → Bool) : Nat → List Char → Option (List Char × List Char)
  | 0, l => some ([], l)
  | _ + 1, [] => none
  | n + 1, c :: l =>
    if p c then (takeCount p n l).map (fun q => (c :: q.1, q.2)) else none

/-- Consumes exactly `n` ASCII digits from the front of `l`, returning them and
the rest.  Models a `\d{n}` regex chunk. -/
def takeDigits : Nat → List Char → Option (List Char × List Char) :=
  takeCount Char.isDigit

/-- Consumes an optional single whitespace character (`\s?`).  Because no
whitespace character is a digit, the greedy-with-backtracking semantics of
`\s?\d{4}` in the source regex is equivalent to this deterministic skip. -/
def skipOptWs : List Char → List Char
  | [] => []
  | c :: l => if isWsChar c then l else c :: l

/-- Consumes the exact character `c` from the front of `l`. -/
def expectChar (c : Char) : List Char → Option (List Char)
  | [] => none
  | x :: r => if x == c then some r else none

/-- Embeds the compiled regex `date_text_re` (src/lib.rs:197-200), pattern
`^\b\d{2}/\d{2}/\d{4}\b$`, as a full-string matcher.  The two `\b` assertions are
vacuous: they sit between the string boundary and a mandatory `\d`, and a digit
is always a word character, so they are not represented. -/
def date_text_re (l : List Char) : Bool :=
  match takeDigits 2 l with
  | none => false
  | some (_, r1) =>
    match expectChar '/' r1 with
    | none => false
    | some r2 =>
      match takeDigits 2 r2 with
      | none => false
      | some (_, r3) =>
        match expectChar '/' r3 with
        | none => false
        | some r4 =>
          match takeDigits 4 r4 with
          | none => false
          | some (_, r5) => r5.isEmpty

/-- Embeds the compiled regex `pagopa_text_re` (src/lib.rs:192-196), pattern
`^(?:30|1\d)\d{2}(?:\s?\d{4}){3}\s?\d{2}$`, as a full-string matcher.  The
alternation `30|1\d` is deterministic (the two branches differ on the first
character) and each `\s?` is deterministic because whitespace and digits are
disjoint, so no backtracking needs to be modelled. -/
def pagopa_text_re (l : List Char) : Bool :=
  match takeDigits 4 l with
  | none => false
  | some (g1, r1) =>
    (match g1 with
      | a :: b :: _ => a == '3' && b == '0' || a == '1'
      | _ => false) &&
    match takeDigits 4 (skipOptWs r1) with
    | none => false
    | some (_, r2) =>
      match takeDigits 4 (skipOptWs r2) with
      | none => false
      | some (_, r3) =>
        match takeDigits 4 (skipOptWs r3) with
        | none => false
        | some (_, r4) =>
          match takeDigits 2 (skipOptWs r4) with
          | none => false
          | some (_, r5) => r5.isEmpty

/-- Consumes an optional single space character, and only a space.  This is the
payment-code grammar as the specification words it ("a single optional space …
no other whitespace character"); compare `skipOptWs`, which is what the source
regex `\s?` actually does. -/
def skipOptSpace : List Char → List Char
  | [] => []
  | c :: l => if c == ' ' then l else c :: l

/-- Payment-code grammar as claimed by the specification: identical to
`pagopa_text_re` except that the optional separator is a space character only,
never another whitespace character. -/
def pagopa_text_space_re (l : List Char) : Bool :=
  match takeDigits 4 l with
  | none => false
  | some (g1, r1) =>
    (match g1 with
      | a :: b :: _ => a == '3' && b == '0' || a == '1'
      | _ => false) &&
    match takeDigits 4 (skipOptSpace r1) with
    | none => false
    | some (_, r2) =>
      match takeDigits 4 (skipOptSpace r2) with
      | none => false
      | some (_, r3) =>
        match takeDigits 4 (skipOptSpace r3) with
        | none => false
        | some (_, r4) =>
          match takeDigits 2 (skipOptSpace r4) with
          | none => false
          | some (_, r5) => r5.isEmpty

example : date_text_re "01/03/2024".data = true := by decide
example : date_text_re "1/3/2024".data = false := by decide
example : date_text_re "01/03/2024 ".data = false := by decide
example : date_text_re "ab/03/2024".data = false := by decide
example : pagopa_text_re "301234567890123456".data = true := by decide
example : pagopa_text_re "3012 3456 7890 1234 56".data = true := by decide
example : pagopa_text_re "3012  3456 7890 1234 56".data = false := by decide
example : pagopa_text_re "3012\t3456 7890 1234 56".data = true := by decide
example : pagopa_text_space_re "3012\t3456 7890 1234 56".data = false := by decide
example : pagopa_text_re "1712 3456 7890 1234 56".data = true := by decide
example : pagopa_text_re "2012 3456 7890 1234 56".data = false := by decide

/-- Consumes the literal prefix `p` from the front of `l`. -/
def stripLit : List Char → List Char → Option (List Char)
  | [], l => some l
  | _ :: _, [] => none
  | c :: p, x :: l => if x == c then stripLit p l else none

/-- Character class `[A-Z0-9 ]` of the structural QR grammar. -/
def isUpperDigitSpace (c : Char) : Bool :=
  ('A' ≤ c && c ≤ 'Z') || c.isDigit || c == ' '

/-- Regex wildcard `.` without the `s` flag: any character except a newline. -/
def isNonNl (c : Char) : Bool :=
  !(c == '\n')

/-- Embeds the first alternative of `pagopa_qr_re` (src/lib.rs:179-191),
`^PAGOPA\|002\|(?P<code1>[0-9]{18})\|[0-9]{11}\|[0-9]{1,}`, returning the
`code1` capture.  The alternative is not end-anchored: after the group of one or
more digits, any remaining characters are accepted.  All counted chunks are of
fixed width, so the regex engine's backtracking never changes the outcome. -/
def pagopa_qr_re_alt1 (l : List Char) : Option (List Char) :=
  match stripLit "PAGOPA|002|".data l with
  | none => none
  | some r1 =>
    match takeDigits 18 r1 with
    | none => none
    | some (code, r2) =>
      match expectChar '|' r2 with
      | none => none
      | some r3 =>
        match takeDigits 11 r3 with
        | none => none
        | some (_, r4) =>
          match expectChar '|' r4 with
          | none => none
          | some r5 =>
            match r5 with
            | c :: _ => if c.isDigit then some code else none
            | [] => none

/-- Embeds the second alternative of `pagopa_qr_re` (src/lib.rs:179-191),
`^codfase=NBPA;18(?P<code2>[0-9]{18})12[0-9]{12}10[0-9]{10}38961P1[0-9]{11}[A-Z0-9 ]{16}.{162}A$`,
returning the `code2` capture.  This alternative is end-anchored and all chunks
have fixed width, so the match is deterministic. -/
def pagopa_qr_re_alt2 (l : List Char) : Option (List Char) :=
  match stripLit "codfase=NBPA;18".data l with
  | none => none
  | some r1 =>
    match takeDigits 18 r1 with
    | none => none
    | some (code, r2) =>
      match stripLit "12".data r2 with
      | none => none
      | some r3 =>
        match takeDigits 12 r3 with
        | none => none
        | some (_, r4) =>
          match stripLit "10".data r4 with
          | none => none
          | some r5 =>
            match takeDigits 10 r5 with
            | none => none
            | some (_, r6) =>
              match stripLit "38961P1".data r6 with
              | none => none
              | some r7 =>
                match takeDigits 11 r7 with
                | none => none
                | some (_, r8) =>
                  match takeCount isUpperDigitSpace 16 r8 with
                  | none => none
                  | some (_, r9) =>
                    match takeCount isNonNl 162 r9 with
                    | none => none
                    | some (_, r10) =>
                      match expectChar 'A' r10 with
                      | none => none
                      | some r11 => if r11.isEmpty then some code else none

/-- Embeds `pagopa_qr_code_from_payload` (src/lib.rs:392-399): run the combined
regex on the payload and return the `code1` capture if the first (prefixed)
alternative matched, otherwise the `code2` capture of the second (structural)
alternative.  Both alternatives are anchored at the start of the payload and
begin with distinct literals, so the regex engine's leftmost-first alternation
is exactly this ordered choice. -/
def pagopa_qr_code_from_payload (s : String) : Option String :=
  match pagopa_qr_re_alt1 s.data with
  | some code => some (String.mk code)
  | none => (pagopa_qr_re_alt2 s.data).map String.mk

example :
    pagopa_qr_code_from_payload "PAGOPA|002|301122334455667788|12345678901|1" =
      some "301122334455667788" := by decide
example : pagopa_qr_code_from_payload "unrelated text" = none := by decide

/-- Numeric value of a list of ASCII digits, most significant first. -/
def digitsVal (l : List Char) : Nat :=
  l.foldl (fun a c => 10 * a + (c.toNat - 48)) 0

/-- Reads the decimal numeral starting at the head of `l` (which is assumed to be
a digit): a maximal run of digits, then an optional `.`-plus-digits fraction,
exactly as the greedy regex `\d+(?:\.\d+)?` consumes it.  The value
`int.frac = (int*10^k + frac) / 10^k` is built with `mkRat` so that it is an
exact rational rendering of the decimal token. -/
def readNumAt (l : List Char) : ℚ :=
  let ip := l.takeWhile Char.isDigit
  let r := l.dropWhile Char.isDigit
  match r with
  | '.' :: r2 =>
    if (r2.head?.map Char.isDigit).getD false then
      let fp := r2.takeWhile Char.isDigit
      mkRat (digitsVal ip * 10 ^ fp.length + digitsVal fp) (10 ^ fp.length)
    else mkRat (digitsVal ip) 1
  | _ => mkRat (digitsVal ip) 1

/-- Embeds `css_float_re` (src/lib.rs:205-208), pattern `(-?\d+(?:\.\d+)?)`,
applied with `captures`: the value of the leftmost numeric token in `l`, if any.
A match can only start at a digit, or at a `-` followed immediately by a digit;
the Rust code parses the token into an `f64`, modelled exactly as a rational. -/
def css_float_re : List Char → Option ℚ
  | [] => none
  | c :: r =>
    if c.isDigit then some (readNumAt (c :: r))
    else if c == '-' && (r.head?.map Char.isDigit).getD false then
      some (-(readNumAt r))
    else css_float_re r

example : css_float_re "72pt".data = some 72 := by decide
example : css_float_re "  -10.25px".data = some (mkRat (-41) 4) := by decide
example : css_float_re "auto".data = none := by decide
example : css_float_re "a-b12.5.6".data = some (mkRat 25 2) := by decide

/-- Rust `str::split_once(':')`: splits at the first colon, if any. -/
def splitOnceColon : List Char → Option (List Char × List Char)
  | [] => none
  | c :: l =>
    if c == ':' then some ([], l)
    else (splitOnceColon l).map (fun p => (c :: p.1, p.2))

/-- Rust `str::split(';')` on a character list: the pieces between the `;`
separators, empty pieces included. -/
def splitOnSemi : List Char → List (List Char)
  | [] => [[]]
  | c :: l =>
    if c == ';' then [] :: splitOnSemi l
    else
      match splitOnSemi l with
      | h :: t => (c :: h) :: t
      | [] => [[c]]

/-- Processes one `;`-separated declaration of an inline style, updating the
`(top, left)` accumulator exactly as the loop body of `parse_style`
(src/lib.rs:216-251) does: split at the first `:`; trim and lowercase the key
and the value (Rust `to_lowercase` restricted to its ASCII action, the only one
relevant to the keys `top`/`left` and to numerals); find the first numeric token
of the value, skipping the declaration if there is none; assign it to `top` or
`left` only if that axis is still unset. -/
def parse_style_part (acc : Option ℚ × Option ℚ) (part : List Char) :
    Option ℚ × Option ℚ :=
  match splitOnceColon part with
  | none => acc
  | some (k, v) =>
    let kk := (trimWs k).map Char.toLower
    match css_float_re ((trimWs v).map Char.toLower) with
    | none => acc
    | some q =>
      if kk == "top".data && acc.1.isNone then (some q, acc.2)
      else if kk == "left".data && acc.2.isNone then (acc.1, some q)
      else acc

/-- Embeds `parse_style` (src/lib.rs:216-251): splits the inline style at `;`,
trims each piece, drops the empty ones and folds them through
`parse_style_part`, starting from `(none, none)`. -/
def parse_style : Option String → Option ℚ × Option ℚ
  | none => (none, none)
  | some s =>
    ((((splitOnSemi s.data).map trimWs).filter (fun p => !p.isEmpty)).foldl
      parse_style_part (none, none))

example : parse_style (some "position:absolute;top:84pt;left:72pt") =
    (some 84, some 72) := by decide
example : parse_style (some "TOP: 10.5pt; Left: -3px") =
    (some (mkRat 21 2), some (-3)) := by decide
example : parse_style (some "top:1;top:2") = (some 1, none) := by decide
example : parse_style (some "top:auto;top:3;;left") = (some 3, none) := by decide
example : parse_style none = (none, none) := by decide

mutual
/-- Node of the parsed HTML tree handed to the pipeline by `scraper`: an element
with a tag name, attributes and children, or a text node.  The children are a
`HForest` (an inlined list) so that every traversal below is structurally
recursive. -/
inductive HNode where
  | el (tag : String) (attrs : List (String × String)) (children : HForest)
  | tx (s : String)
/-- List of sibling nodes, inlined so that the mutual recursion with `HNode` is
structural. -/
inductive HForest where
  | nil
  | cons (head : HNode) (tail : HForest)
end

/-- Builds a forest from a list of nodes. -/
def HForest.ofList : List HNode → HForest
  | [] => .nil
  | n :: ns => .cons n (HForest.ofList ns)

/-- Element constructor taking the children as a plain list. -/
def elN (tag : String) (attrs : List (String × String)) (cs : List HNode) : HNode :=
  HNode.el tag attrs (HForest.ofList cs)

/-- Models `ElementRef::value().attr(name)`: the first attribute with the given
name, if the node is an element. -/
def attrOf (n : HNode) (name : String) : Option String :=
  match n with
  | .el _ attrs _ => (attrs.find? (fun p => p.1 == name)).map (fun p => p.2)
  | .tx _ => none

/-- An element of the parsed document together with its chain of strict
ancestors, nearest first (the parent at the head, the document root at the
end).  This is exactly the data `ego_tree::NodeRef::ancestors` iterates over:
that iterator is the `parent` axis iterator, seeded with `self.parent()`, so it
yields the parent, grandparent, …, and does NOT include the node itself. -/
structure ECtx where
  node : HNode
  anc : List HNode

/-- Loop of `find_coordinates` (src/lib.rs:257-277) over a chain of nodes: each
node's inline style is parsed, an axis still unset is taken from it, and the
walk stops as soon as both axes are set.  Non-element nodes in the chain are
skipped by `ElementRef::wrap` in the source; in this model they carry no
attributes, so they contribute nothing, which is the same thing. -/
def fcWalk (top left : Option ℚ) : List HNode → Option ℚ × Option ℚ
  | [] => (top, left)
  | a :: rest =>
    let tl := parse_style (attrOf a "style")
    let top1 := match top, tl.1 with
      | none, some v => some v
      | _, _ => top
    let left1 := match left, tl.2 with
      | none, some v => some v
      | _, _ => left
    if top1.isSome && left1.isSome then (top1, left1)
    else fcWalk top1 left1 rest

/-- Embeds `find_coordinates` (src/lib.rs:257-277): the walk runs over
`el.ancestors()`, i.e. over the strict ancestors of the element — the element's
own style attribute is never read. -/
def find_coordinates (e : ECtx) : Option ℚ × Option ℚ :=
  fcWalk none none e.anc

/-- Position resolution as the specification describes it: the same walk, but
over the chain "starting at the element itself".  Used to compare the claim
against `find_coordinates`. -/
def find_coordinates_spec (e : ECtx) : Option ℚ × Option ℚ :=
  fcWalk none none (e.node :: e.anc)

/-- Children of a node (empty for a text node). -/
def childrenOf : HNode → HForest
  | .el _ _ cs => cs
  | .tx _ => .nil

/-- Tag of a node, if it is an element. -/
def tagOf : HNode → Option String
  | .el t _ _ => some t
  | .tx _ => none

mutual
/-- Descendant text nodes of a node, in document order: what
`ElementRef::text` iterates. -/
def textsOf : HNode → List String
  | .tx s => [s]
  | .el _ _ cs => textsOfF cs
/-- Descendant text nodes of a forest, in document order. -/
def textsOfF : HForest → List String
  | .nil => []
  | .cons n ns => textsOf n ++ textsOfF ns
end

/-- Rust `Vec::join(" ")`: the pieces interleaved with single spaces. -/
def joinSpace : List String → List Char
  | [] => []
  | [s] => s.data
  | s :: t => s.data ++ ' ' :: joinSpace t

/-- Embeds `text_of` (src/lib.rs:253-255): all descendant text nodes joined with
a single space, then trimmed. -/
def text_of (n : HNode) : String :=
  String.mk (trimWs (joinSpace (textsOf n)))

mutual
/-- Elements of the subtree rooted at a node, in document order (preorder),
each with its chain of strict ancestors; `anc` is the chain above the node. -/
def elemsCtx (anc : List HNode) : HNode → List ECtx
  | .tx _ => []
  | .el t a cs => ⟨.el t a cs, anc⟩ :: elemsCtxF (.el t a cs :: anc) cs
/-- Elements of a forest, in document order, each with its ancestor chain. -/
def elemsCtxF (anc : List HNode) : HForest → List ECtx
  | .nil => []
  | .cons n ns => elemsCtx anc n ++ elemsCtxF anc ns
end

/-- Models `ElementRef::select`: the strict descendant elements of an element,
in document order (the element itself is skipped by `select`). -/
def strictElems (e : ECtx) : List ECtx :=
  elemsCtxF (e.node :: e.anc) (childrenOf e.node)

/-- Candidate kind, as the `Kind` enum of src/lib.rs:173-177. -/
inductive Kind where
  | Date
  | PagoPa

/-- Matched fragment, as the `Item` struct of src/lib.rs:167-171: the cleaned
value and the proximity score (see the header note on the score model). -/
structure Item where
  val : String
  score : WithTop ℚ
deriving DecidableEq

instance : Inhabited Item := ⟨⟨"", ⊤⟩⟩

/-- Multiplication on `ℚ` written out on numerators and denominators, so that it
is transparent to kernel evaluation; `ratMul_eq` shows it is `*`. -/
def ratMul (a b : ℚ) : ℚ :=
  mkRat (a.num * b.num) (a.den * b.den)

/-- Addition on `ℚ` written out on numerators and denominators, so that it is
transparent to kernel evaluation; `ratAdd_eq` shows it is `+`. -/
def ratAdd (a b : ℚ) : ℚ :=
  mkRat (a.num * b.den + b.num * a.den) (a.den * b.den)

theorem ratMul_eq (a b : ℚ) : ratMul a b = a * b := by
  rw [ratMul, Rat.mkRat_eq_div]
  conv_rhs => rw [← Rat.num_div_den a, ← Rat.num_div_den b]
  rw [div_mul_div_comm]
  push_cast
  ring

theorem ratAdd_eq (a b : ℚ) : ratAdd a b = a + b := by
  rw [ratAdd, Rat.mkRat_eq_div]
  conv_rhs => rw [← Rat.num_div_den a, ← Rat.num_div_den b]
  rw [div_add_div _ _ (by exact_mod_cast a.den_nz : ((a.den : ℚ) ≠ 0))
    (by exact_mod_cast b.den_nz : ((b.den : ℚ) ≠ 0))]
  push_cast
  ring

/-- Embeds `calculate_score` (src/lib.rs:279-284) squared: the source returns
`sqrt(t² + l²)` (an `f64`) when both axes are present and `f64::INFINITY`
otherwise; the model returns `t² + l²` in `WithTop ℚ`, which induces exactly the
same order because `sqrt` is strictly monotone on nonnegative reals. -/
def calculate_score : Option ℚ × Option ℚ → WithTop ℚ
  | (some t, some l) => ((ratAdd (ratMul t t) (ratMul l l) : ℚ) : WithTop ℚ)
  | _ => ⊤

/-- Selector test for `p, span, div` (src/lib.rs:307). -/
def isPSpanDiv (e : ECtx) : Bool :=
  (tagOf e.node).any (fun t => t == "p" || t == "span" || t == "div")

/-- Embeds `iter_matches_in_el` (src/lib.rs:286-304): the element's raw joined
text is matched against the grammar of the requested kind; on a match, one item
is produced carrying the whitespace-stripped value and the proximity score of
the element's resolved coordinates. -/
def iter_matches_in_el (e : ECtx) (kind : Kind) : List Item :=
  let txt := text_of e.node
  if txt.data.isEmpty then []
  else
    let m := match kind with
      | .Date => date_text_re txt.data
      | .PagoPa => pagopa_text_re txt.data
    if !m then []
    else [⟨clean_text txt, calculate_score (find_coordinates e)⟩]

/-- The `found` list of `collect_items_for_root` (src/lib.rs:306-311): every
`p`/`span`/`div` descendant of the root is visited in document order and its
matches are appended. -/
def foundItems (root : ECtx) (kind : Kind) : List Item :=
  ((strictElems root).filter isPSpanDiv).flatMap (fun e => iter_matches_in_el e kind)

/-- One step of the deduplicating `HashMap` of `collect_items_for_root`
(src/lib.rs:312-321): `best.entry(val).and_modify(keep smaller score).or_insert`.
The map is modelled as an association list in insertion order; the Rust map's
iteration order is arbitrary, and nothing below depends on the modelled order
(the entry set is order-independent and the output is sorted afterwards). -/
def dedupInsert (m : List (String × Item)) (it : Item) : List (String × Item) :=
  if m.any (fun e => e.1 == it.val) then
    m.map (fun e =>
      if e.1 == it.val && decide (it.score < e.2.score) then (e.1, it) else e)
  else m ++ [(it.val, it)]

/-- Deduplication-then-sort tail of `collect_items_for_root`
(src/lib.rs:312-324): fold the found items into the best-score map, take the
values and sort them ascending by score.  `sort_by` with
`partial_cmp.unwrap_or(Equal)` over scores in `[0, ∞]` (never NaN) is a stable
sort by the total order `≤` of `WithTop ℚ`; a stable sort by a total preorder
has a unique output, so the stable `insertionSort` models it exactly. -/
def dedupSort (found : List Item) : List Item :=
  List.insertionSort (fun a b => a.score ≤ b.score)
    ((found.foldl dedupInsert []).map (fun e => e.2))

/-- Embeds `collect_items_for_root` (src/lib.rs:306-325). -/
def collect_items_for_root (root : ECtx) (kind : Kind) : List Item :=
  dedupSort (foundItems root kind)

/-- Embeds the compiled regex `page_id_re` (src/lib.rs:201-204), pattern
`^page(\d+)$`, returning the numeric value of the capture. -/
def page_id_re (l : List Char) : Option Nat := do
  let r ← stripLit "page".data l
  if !r.isEmpty && r.all Char.isDigit then some (digitsVal r) else none

/-- The page-gathering loop of `process_pages` (src/lib.rs:330-341): every
element matching `div[id]` whose id matches `page(\d+)` and whose captured
number fits in a `u32` (Rust `parse::<u32>`) becomes a page, in document
order. -/
def pagesOf (doc : HNode) : List (Nat × ECtx) :=
  (elemsCtx [] doc).filterMap (fun e =>
    if (tagOf e.node).any (fun t => t == "div") && (attrOf e.node "id").isSome then
      match (attrOf e.node "id").bind (fun id => page_id_re id.data) with
      | some n => if n < 2 ^ 32 then some (n, e) else none
      | none => none
    else none)

/-- The pages sorted ascending by page number (src/lib.rs:342,
`sort_by_key`, a stable sort — modelled by the stable `insertionSort`, whose
output coincides with any stable sort by the same total preorder). -/
def sortedPages (doc : HNode) : List (Nat × ECtx) :=
  List.insertionSort (fun a b => a.1 ≤ b.1) (pagesOf doc)

/-- Embeds `process_pages` (src/lib.rs:326-355): for each page in ascending
page-number order, if both candidate lists are non-empty, zip them into
(date value, code value) pairs; concatenate the pages' contributions. -/
def process_pages (doc : HNode) : List (String × String) :=
  (sortedPages doc).flatMap (fun pg =>
    let dates := collect_items_for_root pg.2 Kind.Date
    let codes := collect_items_for_root pg.2 Kind.PagoPa
    if !dates.isEmpty && !codes.isEmpty then
      (dates.zip codes).map (fun dc => (dc.1.val, dc.2.val))
    else [])

set_option maxRecDepth 10000 in
example :
    process_pages
      (elN "html" [] [elN "body" [] [elN "div" [("id", "page1")]
        [elN "p" [("style", "top:10pt;left:5pt")] [.tx "01/03/2024"],
         elN "p" [("style", "top:12pt;left:4pt")]
           [elN "span" [] [.tx "3011 2233 4455 6677 88"]]]]]) =
      [("01/03/2024", "301122334455667788")] := by decide

/-- Leading-whitespace skip that chrono's numeric-field parser performs. -/
def dropWs (l : List Char) : List Char :=
  l.dropWhile isWsChar

/-- Models chrono's `scan::number(s, min, max)`: consume greedily up to `mx`
digits, failing if fewer than `mn` are present, returning the value and the
rest. -/
def scanNumber (mn mx : Nat) (l : List Char) : Option (Nat × List Char) :=
  let ds := (l.takeWhile Char.isDigit).take mx
  if ds.length < mn then none else some (digitsVal ds, l.drop ds.length)

/-- Proleptic-Gregorian leap year, as chrono computes it. -/
def isLeap (y : Nat) : Bool :=
  y % 4 == 0 && (y % 100 != 0 || y % 400 == 0)

/-- Days in a month of the proleptic-Gregorian calendar (`0` for an invalid
month number). -/
def daysInMonth (y m : Nat) : Nat :=
  if m == 2 then (if isLeap y then 29 else 28)
  else if m == 4 || m == 6 || m == 9 || m == 11 then 30
  else if 1 ≤ m && m ≤ 12 then 31
  else 0

/-- Validity of a year/month/day triple, as chrono's
`NaiveDate::from_ymd_opt` decides it for the year range relevant here. -/
def validYmd (y m d : Nat) : Bool :=
  1 ≤ m && m ≤ 12 && 1 ≤ d && d ≤ daysInMonth y m

/-- Two-digit zero-padded decimal rendering (chrono `%m` / `%d`). -/
def pad2 (n : Nat) : List Char :=
  [Char.ofNat (48 + n / 10 % 10), Char.ofNat (48 + n % 10)]

/-- Four-digit zero-padded decimal rendering (chrono `%Y` for years 0-9999). -/
def pad4 (n : Nat) : List Char :=
  [Char.ofNat (48 + n / 1000 % 10), Char.ofNat (48 + n / 100 % 10),
   Char.ofNat (48 + n / 10 % 10), Char.ofNat (48 + n % 10)]

/-- Embeds `parse_date_to_iso` (src/lib.rs:374-378): trim, parse with chrono as
`%d/%m/%Y`, build midnight UTC and render RFC 3339.  The chrono model: `%d` and
`%m` parse 1-2 digits, `%Y` parses 1-4 digits (chrono additionally accepts an
explicitly `+`/`-`-signed year with more digits, which cannot occur in any
grammar-matched input and is not modelled), each numeric field skips leading
whitespace, the `/` literals match exactly, the whole input must be consumed,
the triple must be a valid proleptic-Gregorian date, and
`DateTime::<Utc>::to_rfc3339` of midnight UTC is
`YYYY-MM-DDT00:00:00+00:00`. -/
def parse_date_to_iso (s : String) : Option String :=
  match scanNumber 1 2 (dropWs (trimWs s.data)) with
  | none => none
  | some (d, l1) =>
    match expectChar '/' l1 with
    | none => none
    | some l2 =>
      match scanNumber 1 2 (dropWs l2) with
      | none => none
      | some (m, l3) =>
        match expectChar '/' l3 with
        | none => none
        | some l4 =>
          match scanNumber 1 4 (dropWs l4) with
          | none => none
          | some (y, l5) =>
            if !l5.isEmpty then none
            else if validYmd y m d then
              some (String.mk (pad4 y ++ '-' :: (pad2 m ++ '-' ::
                (pad2 d ++ "T00:00:00+00:00".data))))
            else none

example : parse_date_to_iso "01/03/2024" = some "2024-03-01T00:00:00+00:00" := by decide
example : parse_date_to_iso "29/02/2024" = some "2024-02-29T00:00:00+00:00" := by decide
example : parse_date_to_iso "29/02/2023" = none := by decide
example : parse_date_to_iso "32/01/2024" = none := by decide
example : parse_date_to_iso "01/13/2024" = none := by decide
example : parse_date_to_iso "1/3/2024" = some "2024-03-01T00:00:00+00:00" := by decide

/-- Mirrors the `DateCodePair` struct (src/lib.rs:161-165). -/
structure DateCodePair where
  date : String
  code : String
deriving DecidableEq

/-- Embeds `extract_dates_and_codes_from_html` (src/lib.rs:380-390): each pair
produced by `process_pages` whose date parses becomes a `DateCodePair`
(with the code cleaned once more); pairs whose date fails to parse are
dropped. -/
def extract_dates_and_codes_from_html (doc : HNode) : List DateCodePair :=
  (process_pages doc).filterMap (fun p =>
    (parse_date_to_iso p.1).map (fun iso => ⟨iso, clean_text p.2⟩))

/-- Mirrors the `BarcodeData` struct (src/lib.rs:24-30); the field `rtype`
models the Rust field `r#type` (`type` is a reserved word here too). -/
structure BarcodeData where
  rtype : String
  data : String
  date : Option String
deriving DecidableEq

/-- Mirrors the `ScanResult` struct (src/lib.rs:19-22). -/
structure ScanResult where
  barcodes : List BarcodeData
deriving DecidableEq

/-- `HashMap::insert` on an insertion-stack model: prepend the binding, so that
`hmGet` (which takes the most recent binding of a key) behaves exactly like
`HashMap` insert-then-get.  The code-to-date index built below is only ever
read through `get`, never iterated, so this model is observationally identical
to the Rust map. -/
def hmInsert (m : List (String × String)) (k v : String) : List (String × String) :=
  (k, v) :: m

/-- The code-to-date map of `enrich_barcodes_with_dates` (src/lib.rs:402-405):
`pairs.iter().map(|p| (code, date)).collect::<HashMap<_,_>>()`, i.e. the pairs
inserted left to right, a later binding of a key overwriting an earlier one. -/
def buildIndex (pairs : List DateCodePair) : List (String × String) :=
  pairs.foldl (fun m p => hmInsert m p.code p.date) []

/-- `HashMap::get` on the association-list model. -/
def hmGet (m : List (String × String)) (k : String) : Option String :=
  (m.find? (fun e => e.1 == k)).map (fun e => e.2)

/-- Embeds `enrich_barcodes_with_dates` (src/lib.rs:401-414): for each barcode,
if its payload yields a code and the code is in the index, set the `date`
field; otherwise leave the barcode untouched. -/
def enrich_barcodes_with_dates (barcodes : List BarcodeData)
    (pairs : List DateCodePair) : List BarcodeData :=
  let map := buildIndex pairs
  barcodes.map (fun b =>
    match pagopa_qr_code_from_payload b.data with
    | some code =>
      match hmGet map code with
      | some date_iso => ⟨b.rtype, b.data, some date_iso⟩
      | none => b
    | none => b)

/-- Embeds `process_file` (src/lib.rs:49-73) with its external collaborators
passed as values: `scan` is the outcome of `scan_barcodes` (the external
barcode decoding, whose error short-circuits via `?`), `mime` the inferred
mime type, and `conv` the outcome of `run_mutool_to_html` composed with the
(out-of-scope) HTML parse — the markup-conversion collaborator, which may
fail.  A conversion failure is mapped to an empty pair list; the function then
always returns `Except.ok` with the enriched barcodes. -/
def process_file (scan : Except String (List BarcodeData)) (mime : String)
    (conv : Except String HNode) : Except String ScanResult := do
  let barcodes ← scan
  let pairs :=
    if mime == "application/pdf" then
      match conv with
      | .ok doc => extract_dates_and_codes_from_html doc
      | .error _ => []
    else []
  pure ⟨enrich_barcodes_with_dates barcodes pairs⟩

/-! Characterization lemmas for the chunk consumers used by the regex models. -/

theorem takeCount_eq_some {p : Char → Bool} {n : Nat} {l d r : List Char} :
    takeCount p n l = some (d, r) ↔
      d.length = n ∧ (∀ c ∈ d, p c = true) ∧ l = d ++ r := by
  induction n generalizing l d r with
  | zero =>
    simp only [takeCount, Option.some.injEq, Prod.mk.injEq]
    constructor
    · rintro ⟨rfl, rfl⟩
      simp
    · rintro ⟨hlen, -, rfl⟩
      rw [List.eq_nil_of_length_eq_zero hlen]
      simp
  | succ n ih =>
    cases l with
    | nil =>
      simp only [takeCount]
      constructor
      · rintro ⟨⟩
      · rintro ⟨hlen, -, hl⟩
        rcases List.append_eq_nil.mp hl.symm with ⟨rfl, -⟩
        simp at hlen
    | cons c l' =>
      by_cases hc : p c
      · simp only [takeCount, hc, if_pos, Option.map_eq_some']
        constructor
        · rintro ⟨⟨d', r'⟩, hd', heq⟩
          obtain ⟨rfl, rfl⟩ : c :: d' = d ∧ r' = r := by simpa using heq
          obtain ⟨hlen, hall, hsplit⟩ := ih.mp hd'
          refine ⟨by simp [hlen], ?_, by simp [hsplit]⟩
          intro x hx
          rcases List.mem_cons.mp hx with rfl | hx
          · exact hc
          · exact hall x hx
        · rintro ⟨hlen, hall, hsplit⟩
          cases d with
          | nil => simp at hlen
          | cons a d' =>
            obtain ⟨heq, hl'⟩ : c = a ∧ l' = d' ++ r := by simpa using hsplit
            subst heq
            refine ⟨(d', r), ih.mpr ⟨by simpa using hlen, ?_, hl'⟩, rfl⟩
            intro x hx
            exact hall x (List.mem_cons_of_mem _ hx)
      · simp only [takeCount, hc, if_neg, Bool.false_eq_true, not_false_iff]
        constructor
        · rintro ⟨⟩
        · rintro ⟨hlen, hall, hsplit⟩
          cases d with
          | nil => simp at hlen
          | cons a d' =>
            obtain ⟨heq, -⟩ : c = a ∧ l' = d' ++ r := by simpa using hsplit
            subst heq
            exact absurd (hall c (by simp)) (by simp [hc])

theorem takeDigits_eq_some {n : Nat} {l d r : List Char} :
    takeDigits n l = some (d, r) ↔
      d.length = n ∧ (∀ c ∈ d, c.isDigit = true) ∧ l = d ++ r :=
  takeCount_eq_some

theorem stripLit_eq_some {p l r : List Char} :
    stripLit p l = some r ↔ l = p ++ r := by
  induction p generalizing l with
  | nil => simp [stripLit]
  | cons c p ih =>
    cases l with
    | nil => simp [stripLit]
    | cons x l' =>
      by_cases hx : x = c
      · subst hx
        simp [stripLit, ih]
      · simp [stripLit, hx]

theorem expectChar_eq_some {c : Char} {l r : List Char} :
    expectChar c l = some r ↔ l = c :: r := by
  cases l with
  | nil => simp [expectChar]
  | cons x l' =>
    by_cases hx : x = c
    · subst hx
      simp [expectChar]
    · simp [expectChar, hx]

/-- An optional single-whitespace separator: empty, or one whitespace
character. -/
def optWsSep (s : List Char) : Prop :=
  s = [] ∨ ∃ c, isWsChar c = true ∧ s = [c]

theorem skipOptWs_decomp (r : List Char) :
    ∃ s, optWsSep s ∧ r = s ++ skipOptWs r := by
  cases r with
  | nil => exact ⟨[], Or.inl rfl, rfl⟩
  | cons c t =>
    by_cases h : isWsChar c
    · exact ⟨[c], Or.inr ⟨c, h, rfl⟩, by simp [skipOptWs, h]⟩
    · exact ⟨[], Or.inl rfl, by simp [skipOptWs, h]⟩

theorem skipOptWs_append {s : List Char} (hs : optWsSep s) {c : Char}
    (hc : isWsChar c = false) (y : List Char) :
    skipOptWs (s ++ c :: y) = c :: y := by
  rcases hs with rfl | ⟨w, hw, rfl⟩
  · simp [skipOptWs, hc]
  · simp [skipOptWs, hw]

theorem not_ws_of_isDigit {c : Char} (h : c.isDigit = true) :
    isWsChar c = false := by
  cases hw : isWsChar c
  · rfl
  · exfalso
    have hmem : c ∈ ['\x20', '\t', '\n', '\x0b', '\x0c', '\r', '\u0085',
        '\u00a0', '\u1680', '\u2000', '\u2001', '\u2002', '\u2003', '\u2004',
        '\u2005', '\u2006', '\u2007', '\u2008', '\u2009', '\u200a', '\u2028',
        '\u2029', '\u202f', '\u205f', '\u3000'] := by
      simpa [isWsChar] using hw
    fin_cases hmem <;> simp_all

/-- C7: the date classification grammar accepts exactly the full strings of the
form two digits, `/`, two digits, `/`, four digits — no other characters and no
interior or boundary whitespace — and in particular accepts "01/03/2024" and
rejects "1/3/2024", "01/03/2024 " and "ab/03/2024". -/
theorem date_grammar_exact :
    (∀ l : List Char, date_text_re l = true ↔
      ∃ d m y : List Char,
        l = d ++ '/' :: (m ++ '/' :: y) ∧
        d.length = 2 ∧ m.length = 2 ∧ y.length = 4 ∧
        (∀ c ∈ d, c.isDigit = true) ∧ (∀ c ∈ m, c.isDigit = true) ∧
        (∀ c ∈ y, c.isDigit = true)) ∧
    date_text_re "01/03/2024".data = true ∧
    date_text_re "1/3/2024".data = false ∧
    date_text_re "01/03/2024 ".data = false ∧
    date_text_re "ab/03/2024".data = false := by
  refine ⟨?_, by decide, by decide, by decide, by decide⟩
  intro l
  rw [date_text_re]
  constructor
  · intro h
    cases h1 : takeDigits 2 l with
    | none => rw [h1] at h; simp at h
    | some p1 =>
      obtain ⟨d, r1⟩ := p1
      rw [h1] at h
      dsimp only at h
      cases h2 : expectChar '/' r1 with
      | none => rw [h2] at h; simp at h
      | some r2 =>
        rw [h2] at h
        dsimp only at h
        cases h3 : takeDigits 2 r2 with
        | none => rw [h3] at h; simp at h
        | some p3 =>
          obtain ⟨m, r3⟩ := p3
          rw [h3] at h
          dsimp only at h
          cases h4 : expectChar '/' r3 with
          | none => rw [h4] at h; simp at h
          | some r4 =>
            rw [h4] at h
            dsimp only at h
            cases h5 : takeDigits 4 r4 with
            | none => rw [h5] at h; simp at h
            | some p5 =>
              obtain ⟨y, r5⟩ := p5
              rw [h5] at h
              dsimp only at h
              cases r5 with
              | cons c t => simp [List.isEmpty] at h
              | nil =>
                obtain ⟨hd1, hd2, hd3⟩ := takeDigits_eq_some.mp h1
                obtain ⟨hm1, hm2, hm3⟩ := takeDigits_eq_some.mp h3
                obtain ⟨hy1, hy2, hy3⟩ := takeDigits_eq_some.mp h5
                rw [expectChar_eq_some] at h2 h4
                refine ⟨d, m, y, ?_, hd1, hm1, hy1, hd2, hm2, hy2⟩
                subst hd3 h2 hm3 h4 hy3
                simp
  · rintro ⟨d, m, y, rfl, hd1, hm1, hy1, hd2, hm2, hy2⟩
    have h1 : takeDigits 2 (d ++ '/' :: (m ++ '/' :: y)) =
        some (d, '/' :: (m ++ '/' :: y)) :=
      takeDigits_eq_some.mpr ⟨hd1, hd2, rfl⟩
    have h3 : takeDigits 2 (m ++ '/' :: y) = some (m, '/' :: y) :=
      takeDigits_eq_some.mpr ⟨hm1, hm2, rfl⟩
    have h5 : takeDigits 4 y = some (y, []) :=
      takeDigits_eq_some.mpr ⟨hy1, hy2, by simp⟩
    rw [h1]
    dsimp only
    rw [expectChar_eq_some.mpr rfl]
    dsimp only
    rw [h3]
    dsimp only
    rw [expectChar_eq_some.mpr rfl]
    dsimp only
    rw [h5]
    dsimp only
    simp [List.isEmpty]

/-- C3 counterexample: the source regex `\s?` accepts any single whitespace
character as group separator, not only a space — a tab-separated rendering is
accepted by the code's grammar but rejected by the space-only grammar that the
claim describes. -/
theorem pagopa_grammar_space_only_counterexample :
    pagopa_text_re "3012\t3456 7890 1234 56".data = true ∧
    pagopa_text_space_re "3012\t3456 7890 1234 56".data = false :=
  ⟨by decide, by decide⟩

/-- Step-level view of `pagopa_text_re`: the matcher succeeds exactly when the
five digit groups parse in sequence with an optional whitespace skip before
each of the last four, consuming the whole input. -/
theorem pagopa_text_re_steps (l : List Char) :
    pagopa_text_re l = true ↔
      ∃ g1 r1 g2 r2 g3 r3 g4 r4 g5,
        takeDigits 4 l = some (g1, r1) ∧
        (match g1 with
          | a :: b :: _ => a == '3' && b == '0' || a == '1'
          | _ => false) = true ∧
        takeDigits 4 (skipOptWs r1) = some (g2, r2) ∧
        takeDigits 4 (skipOptWs r2) = some (g3, r3) ∧
        takeDigits 4 (skipOptWs r3) = some (g4, r4) ∧
        takeDigits 2 (skipOptWs r4) = some (g5, ([] : List Char)) := by
  rw [pagopa_text_re]
  constructor
  · intro h
    cases h1 : takeDigits 4 l with
    | none => rw [h1] at h; simp at h
    | some p1 =>
      obtain ⟨g1, r1⟩ := p1
      rw [h1] at h
      dsimp only at h
      simp only [Bool.and_eq_true] at h
      obtain ⟨hok, h⟩ := h
      cases h2 : takeDigits 4 (skipOptWs r1) with
      | none => rw [h2] at h; simp at h
      | some p2 =>
        obtain ⟨g2, r2⟩ := p2
        rw [h2] at h
        dsimp only at h
        cases h3 : takeDigits 4 (skipOptWs r2) with
        | none => rw [h3] at h; simp at h
        | some p3 =>
          obtain ⟨g3, r3⟩ := p3
          rw [h3] at h
          dsimp only at h
          cases h4 : takeDigits 4 (skipOptWs r3) with
          | none => rw [h4] at h; simp at h
          | some p4 =>
            obtain ⟨g4, r4⟩ := p4
            rw [h4] at h
            dsimp only at h
            cases h5 : takeDigits 2 (skipOptWs r4) with
            | none => rw [h5] at h; simp at h
            | some p5 =>
              obtain ⟨g5, r5⟩ := p5
              rw [h5] at h
              dsimp only at h
              cases r5 with
              | nil =>
                exact ⟨g1, r1, g2, r2, g3, r3, g4, r4, g5,
                  rfl, hok, h2, h3, h4, h5⟩
              | cons c t => simp [List.isEmpty] at h
  · rintro ⟨g1, r1, g2, r2, g3, r3, g4, r4, g5, h1, hok, h2, h3, h4, h5⟩
    rw [h1]
    dsimp only
    rw [hok, h2]
    dsimp only
    rw [h3]
    dsimp only
    rw [h4]
    dsimp only
    rw [h5]
    dsimp only
    simp [List.isEmpty]

/-- Helper: an optional whitespace separator followed by a non-empty digit
group is consumed deterministically. -/
theorem skipOptWs_take {s g r : List Char} (hs : optWsSep s)
    (hgd : ∀ c ∈ g, c.isDigit = true) (hne : g ≠ []) {n : Nat}
    (hg : g.length = n) :
    takeDigits n (skipOptWs (s ++ (g ++ r))) = some (g, r) := by
  rcases g with - | ⟨c, t⟩
  · exact absurd rfl hne
  have hw := not_ws_of_isDigit (hgd c (by simp))
  rw [List.cons_append, skipOptWs_append hs hw]
  exact takeDigits_eq_some.mpr ⟨hg, hgd, by simp⟩

/-- C3 (amended): the payment-code classification grammar accepts exactly the
full strings that are an 18-digit numeral beginning with `30` or with `1`
followed by any digit, either ungrouped or grouped as 2+2+4+4+4+2 digits,
where a single optional whitespace character — the regex class `\s`, i.e. a
space, tab, or any other whitespace character, not only a space — may appear
immediately before each of the three middle 4-digit groups and before the
trailing 2-digit group; any other spacing pattern (e.g. a double space, or
whitespace elsewhere) is rejected. -/
theorem pagopa_grammar_characterization :
    ∀ l : List Char, pagopa_text_re l = true ↔
      ∃ g1 g2 g3 g4 g5 s1 s2 s3 s4 : List Char,
        l = g1 ++ s1 ++ g2 ++ s2 ++ g3 ++ s3 ++ g4 ++ s4 ++ g5 ∧
        g1.length = 4 ∧ g2.length = 4 ∧ g3.length = 4 ∧ g4.length = 4 ∧
        g5.length = 2 ∧
        (∀ c ∈ g1, c.isDigit = true) ∧ (∀ c ∈ g2, c.isDigit = true) ∧
        (∀ c ∈ g3, c.isDigit = true) ∧ (∀ c ∈ g4, c.isDigit = true) ∧
        (∀ c ∈ g5, c.isDigit = true) ∧
        (g1.take 2 = ['3', '0'] ∨ g1.take 1 = ['1']) ∧
        optWsSep s1 ∧ optWsSep s2 ∧ optWsSep s3 ∧ optWsSep s4 := by
  intro l
  rw [pagopa_text_re_steps]
  constructor
  · rintro ⟨g1, r1, g2, r2, g3, r3, g4, r4, g5, h1, hok, h2, h3, h4, h5⟩
    obtain ⟨hl1, hd1, he1⟩ := takeDigits_eq_some.mp h1
    obtain ⟨hl2, hd2, he2⟩ := takeDigits_eq_some.mp h2
    obtain ⟨hl3, hd3, he3⟩ := takeDigits_eq_some.mp h3
    obtain ⟨hl4, hd4, he4⟩ := takeDigits_eq_some.mp h4
    obtain ⟨hl5, hd5, he5⟩ := takeDigits_eq_some.mp h5
    obtain ⟨s1, hs1, hr1⟩ := skipOptWs_decomp r1
    obtain ⟨s2, hs2, hr2⟩ := skipOptWs_decomp r2
    obtain ⟨s3, hs3, hr3⟩ := skipOptWs_decomp r3
    obtain ⟨s4, hs4, hr4⟩ := skipOptWs_decomp r4
    refine ⟨g1, g2, g3, g4, g5, s1, s2, s3, s4, ?_, hl1, hl2, hl3, hl4, hl5,
      hd1, hd2, hd3, hd4, hd5, ?_, hs1, hs2, hs3, hs4⟩
    · rw [he1, hr1, he2, hr2, he3, hr3, he4, hr4, he5]
      simp [List.append_assoc]
    · rcases g1 with - | ⟨a, - | ⟨b, t⟩⟩
      · simp at hl1
      · simp at hl1
      · simp only [Bool.or_eq_true, Bool.and_eq_true, beq_iff_eq] at hok
        rcases hok with ⟨rfl, rfl⟩ | rfl
        · left
          simp
        · right
          simp
  · rintro ⟨g1, g2, g3, g4, g5, s1, s2, s3, s4, rfl, hl1, hl2, hl3, hl4, hl5,
      hd1, hd2, hd3, hd4, hd5, hstart, hs1, hs2, hs3, hs4⟩
    have hne2 : g2 ≠ [] := by rintro rfl; simp at hl2
    have hne3 : g3 ≠ [] := by rintro rfl; simp at hl3
    have hne4 : g4 ≠ [] := by rintro rfl; simp at hl4
    have hne5 : g5 ≠ [] := by rintro rfl; simp at hl5
    refine ⟨g1,
      s1 ++ (g2 ++ (s2 ++ (g3 ++ (s3 ++ (g4 ++ (s4 ++ (g5 ++ []))))))),
      g2, s2 ++ (g3 ++ (s3 ++ (g4 ++ (s4 ++ (g5 ++ []))))),
      g3, s3 ++ (g4 ++ (s4 ++ (g5 ++ []))),
      g4, s4 ++ (g5 ++ []),
      g5, ?_, ?_, ?_, ?_, ?_, ?_⟩
    · exact takeDigits_eq_some.mpr ⟨hl1, hd1, by simp [List.append_assoc]⟩
    · rcases g1 with - | ⟨a, - | ⟨b, t⟩⟩
      · simp at hl1
      · simp at hl1
      · rcases hstart with h30 | h1x
        · obtain ⟨rfl, rfl⟩ : a = '3' ∧ b = '0' := by simpa using h30
          simp
        · obtain rfl : a = '1' := by simpa using h1x
          simp
    · exact skipOptWs_take hs1 hd2 hne2 hl2
    · exact skipOptWs_take hs2 hd3 hne3 hl3
    · exact skipOptWs_take hs3 hd4 hne4 hl4
    · exact skipOptWs_take hs4 hd5 hne5 hl5

/-- The prefixed barcode-payload grammar as the specification describes it:
`PAGOPA|002|`, an 18-digit code (captured), `|`, 11 digits, `|`, one-or-more
digits.  The alternative is not end-anchored, so "one-or-more digits" amounts
to one digit followed by an arbitrary remainder. -/
def qr1Spec (l code : List Char) : Prop :=
  ∃ (d11 : List Char) (d : Char) (rest : List Char),
    l = "PAGOPA|002|".data ++ (code ++ ('|' :: (d11 ++ ('|' :: (d :: rest))))) ∧
    code.length = 18 ∧ (∀ c ∈ code, c.isDigit = true) ∧
    d11.length = 11 ∧ (∀ c ∈ d11, c.isDigit = true) ∧
    d.isDigit = true

/-- The structural barcode-payload grammar as the specification describes it:
`codfase=NBPA;18`, an 18-digit code (captured), `12`, 12 digits, `10`,
10 digits, `38961P1`, 11 digits, 16 characters from uppercase
letters/digits/space, 162 wildcard characters (the regex `.`: anything but a
newline) and a terminal `A`, consuming the whole payload. -/
def qr2Spec (l code : List Char) : Prop :=
  ∃ d12 d10 d11 a16 w162 : List Char,
    l = "codfase=NBPA;18".data ++ (code ++ ("12".data ++ (d12 ++ ("10".data ++
      (d10 ++ ("38961P1".data ++ (d11 ++ (a16 ++ (w162 ++ ['A']))))))))) ∧
    code.length = 18 ∧ (∀ c ∈ code, c.isDigit = true) ∧
    d12.length = 12 ∧ (∀ c ∈ d12, c.isDigit = true) ∧
    d10.length = 10 ∧ (∀ c ∈ d10, c.isDigit = true) ∧
    d11.length = 11 ∧ (∀ c ∈ d11, c.isDigit = true) ∧
    a16.length = 16 ∧ (∀ c ∈ a16, isUpperDigitSpace c = true) ∧
    w162.length = 162 ∧ (∀ c ∈ w162, isNonNl c = true)

theorem pagopa_qr_re_alt1_iff {l code : List Char} :
    pagopa_qr_re_alt1 l = some code ↔ qr1Spec l code := by
  rw [pagopa_qr_re_alt1]
  constructor
  · intro h
    cases h1 : stripLit "PAGOPA|002|".data l with
    | none => rw [h1] at h; simp at h
    | some r1 =>
      rw [h1] at h
      dsimp only at h
      cases h2 : takeDigits 18 r1 with
      | none => rw [h2] at h; simp at h
      | some p2 =>
        obtain ⟨cd, r2⟩ := p2
        rw [h2] at h
        dsimp only at h
        cases h3 : expectChar '|' r2 with
        | none => rw [h3] at h; simp at h
        | some r3 =>
          rw [h3] at h
          dsimp only at h
          cases h4 : takeDigits 11 r3 with
          | none => rw [h4] at h; simp at h
          | some p4 =>
            obtain ⟨d11, r4⟩ := p4
            rw [h4] at h
            dsimp only at h
            cases h5 : expectChar '|' r4 with
            | none => rw [h5] at h; simp at h
            | some r5 =>
              rw [h5] at h
              dsimp only at h
              cases r5 with
              | nil => simp at h
              | cons d rest =>
                dsimp only at h
                by_cases hd : d.isDigit
                · rw [if_pos hd] at h
                  obtain rfl : cd = code := by simpa using h
                  obtain ⟨hc1, hc2, hc3⟩ := takeDigits_eq_some.mp h2
                  obtain ⟨h11a, h11b, h11c⟩ := takeDigits_eq_some.mp h4
                  rw [stripLit_eq_some] at h1
                  rw [expectChar_eq_some] at h3 h5
                  refine ⟨d11, d, rest, ?_, hc1, hc2, h11a, h11b, hd⟩
                  rw [h1, hc3, h3, h11c, h5]
                · rw [if_neg hd] at h
                  simp at h
  · rintro ⟨d11, d, rest, rfl, hc1, hc2, h11a, h11b, hd⟩
    rw [stripLit_eq_some.mpr rfl]
    dsimp only
    rw [takeDigits_eq_some.mpr ⟨hc1, hc2, rfl⟩]
    dsimp only
    rw [expectChar_eq_some.mpr rfl]
    dsimp only
    rw [takeDigits_eq_some.mpr ⟨h11a, h11b, rfl⟩]
    dsimp only
    rw [expectChar_eq_some.mpr rfl]
    dsimp only
    rw [if_pos hd]

theorem pagopa_qr_re_alt2_iff {l code : List Char} :
    pagopa_qr_re_alt2 l = some code ↔ qr2Spec l code := by
  rw [pagopa_qr_re_alt2]
  constructor
  · intro h
    cases h1 : stripLit "codfase=NBPA;18".data l with
    | none => rw [h1] at h; simp at h
    | some r1 =>
      rw [h1] at h
      dsimp only at h
      cases h2 : takeDigits 18 r1 with
      | none => rw [h2] at h; simp at h
      | some p2 =>
        obtain ⟨cd, r2⟩ := p2
        rw [h2] at h
        dsimp only at h
        cases h3 : stripLit "12".data r2 with
        | none => rw [h3] at h; simp at h
        | some r3 =>
          rw [h3] at h
          dsimp only at h
          cases h4 : takeDigits 12 r3 with
          | none => rw [h4] at h; simp at h
          | some p4 =>
            obtain ⟨d12, r4⟩ := p4
            rw [h4] at h
            dsimp only at h
            cases h5 : stripLit "10".data r4 with
            | none => rw [h5] at h; simp at h
            | some r5 =>
              rw [h5] at h
              dsimp only at h
              cases h6 : takeDigits 10 r5 with
              | none => rw [h6] at h; simp at h
              | some p6 =>
                obtain ⟨d10, r6⟩ := p6
                rw [h6] at h
                dsimp only at h
                cases h7 : stripLit "38961P1".data r6 with
                | none => rw [h7] at h; simp at h
                | some r7 =>
                  rw [h7] at h
                  dsimp only at h
                  cases h8 : takeDigits 11 r7 with
                  | none => rw [h8] at h; simp at h
                  | some p8 =>
                    obtain ⟨d11, r8⟩ := p8
                    rw [h8] at h
                    dsimp only at h
                    cases h9 : takeCount isUpperDigitSpace 16 r8 with
                    | none => rw [h9] at h; simp at h
                    | some p9 =>
                      obtain ⟨a16, r9⟩ := p9
                      rw [h9] at h
                      dsimp only at h
                      cases h10 : takeCount isNonNl 162 r9 with
                      | none => rw [h10] at h; simp at h
                      | some p10 =>
                        obtain ⟨w162, r10⟩ := p10
                        rw [h10] at h
                        dsimp only at h
                        cases h11 : expectChar 'A' r10 with
                        | none => rw [h11] at h; simp at h
                        | some r11 =>
                          rw [h11] at h
                          dsimp only at h
                          cases r11 with
                          | cons c t => simp [List.isEmpty] at h
                          | nil =>
                            obtain rfl : cd = code := by
                              simpa [List.isEmpty] using h
                            obtain ⟨ha1, ha2, ha3⟩ := takeDigits_eq_some.mp h2
                            obtain ⟨hb1, hb2, hb3⟩ := takeDigits_eq_some.mp h4
                            obtain ⟨hc1, hc2, hc3⟩ := takeDigits_eq_some.mp h6
                            obtain ⟨hd1, hd2, hd3⟩ := takeDigits_eq_some.mp h8
                            obtain ⟨he1, he2, he3⟩ := takeCount_eq_some.mp h9
                            obtain ⟨hf1, hf2, hf3⟩ := takeCount_eq_some.mp h10
                            rw [stripLit_eq_some] at h1 h3 h5 h7
                            rw [expectChar_eq_some] at h11
                            refine ⟨d12, d10, d11, a16, w162, ?_, ha1, ha2,
                              hb1, hb2, hc1, hc2, hd1, hd2, he1, he2, hf1, hf2⟩
                            rw [h1, ha3, h3, hb3, h5, hc3, h7, hd3, he3, hf3, h11]
  · rintro ⟨d12, d10, d11, a16, w162, rfl, ha1, ha2, hb1, hb2, hc1, hc2,
      hd1, hd2, he1, he2, hf1, hf2⟩
    rw [stripLit_eq_some.mpr rfl]
    dsimp only
    rw [takeDigits_eq_some.mpr ⟨ha1, ha2, rfl⟩]
    dsimp only
    rw [stripLit_eq_some.mpr rfl]
    dsimp only
    rw [takeDigits_eq_some.mpr ⟨hb1, hb2, rfl⟩]
    dsimp only
    rw [stripLit_eq_some.mpr rfl]
    dsimp only
    rw [takeDigits_eq_some.mpr ⟨hc1, hc2, rfl⟩]
    dsimp only
    rw [stripLit_eq_some.mpr rfl]
    dsimp only
    rw [takeDigits_eq_some.mpr ⟨hd1, hd2, rfl⟩]
    dsimp only
    rw [takeCount_eq_some.mpr ⟨he1, he2, rfl⟩]
    dsimp only
    rw [takeCount_eq_some.mpr ⟨hf1, hf2, rfl⟩]
    dsimp only
    rw [expectChar_eq_some.mpr rfl]
    dsimp only
    simp [List.isEmpty]

/-- C4: barcode-payload code extraction recognizes exactly the two payload
grammars, attempted in order with the first match winning — the prefixed form
(`qr1Spec`) and the structural form (`qr2Spec`) — returning the captured
18-digit code; a payload matching neither grammar (e.g. "unrelated text")
yields no code, which is not an error. -/
theorem qr_payload_decoder_exact :
    (∀ (s c : String),
      pagopa_qr_code_from_payload s = some c ↔
        (∃ code, qr1Spec s.data code ∧ c = String.mk code) ∨
        ((∀ code, ¬ qr1Spec s.data code) ∧
          ∃ code, qr2Spec s.data code ∧ c = String.mk code)) ∧
    pagopa_qr_code_from_payload "PAGOPA|002|301122334455667788|12345678901|1" =
      some "301122334455667788" ∧
    pagopa_qr_code_from_payload "unrelated text" = none := by
  refine ⟨?_, by decide, by decide⟩
  intro s c
  rw [pagopa_qr_code_from_payload]
  cases ha : pagopa_qr_re_alt1 s.data with
  | some code0 =>
    dsimp only
    constructor
    · intro h
      obtain rfl : c = String.mk code0 := by simpa using h.symm
      exact Or.inl ⟨code0, pagopa_qr_re_alt1_iff.mp ha, rfl⟩
    · rintro (⟨code, hq, rfl⟩ | ⟨hnone, -⟩)
      · have := pagopa_qr_re_alt1_iff.mpr hq
        rw [ha] at this
        obtain rfl : code0 = code := by simpa using this
        rfl
      · exact absurd (pagopa_qr_re_alt1_iff.mp ha) (hnone code0)
  | none =>
    dsimp only
    have hnone : ∀ code, ¬ qr1Spec s.data code := by
      intro code hq
      have := pagopa_qr_re_alt1_iff.mpr hq
      rw [ha] at this
      exact absurd this (by simp)
    constructor
    · intro h
      obtain ⟨code, hcode, rfl⟩ := Option.map_eq_some'.mp h
      exact Or.inr ⟨hnone, code, pagopa_qr_re_alt2_iff.mp hcode, rfl⟩
    · rintro (⟨code, hq, rfl⟩ | ⟨-, code, h2, rfl⟩)
      · exact absurd hq (hnone code)
      · rw [pagopa_qr_re_alt2_iff.mpr h2]
        rfl

theorem fcWalk_eq (chain : List HNode) : ∀ top left : Option ℚ,
    fcWalk top left chain =
      (top.or (chain.filterMap (fun a => (parse_style (attrOf a "style")).1)).head?,
       left.or (chain.filterMap (fun a => (parse_style (attrOf a "style")).2)).head?) := by
  induction chain with
  | nil =>
    intro top left
    simp [fcWalk]
  | cons a rest ih =>
    intro top left
    cases htl : parse_style (attrOf a "style") with
    | mk t l =>
      rcases top with - | tv <;> rcases left with - | lv <;>
        rcases t with - | v1 <;> rcases l with - | v2 <;>
          simp [fcWalk, htl, ih, Option.or, Option.none_or]

/-- C1 counterexample: an element whose own inline style declares both axes,
with no ancestor declaring either.  `find_coordinates` walks
`ego_tree::NodeRef::ancestors`, which starts at the parent — the element's own
style is ignored and both axes stay unresolved, where the claimed walk
"starting at the element itself" would resolve both. -/
theorem find_coordinates_ignores_self_style :
    find_coordinates ⟨elN "p" [("style", "top:10;left:5")] [HNode.tx "x"],
      [elN "div" [("id", "page1")] []]⟩ = (none, none) ∧
    find_coordinates_spec ⟨elN "p" [("style", "top:10;left:5")] [HNode.tx "x"],
      [elN "div" [("id", "page1")] []]⟩ = (some 10, some 5) :=
  ⟨by decide, by decide⟩

/-- C1 (amended): the position of an element is resolved by walking its chain
of STRICT ancestors, starting at the parent — a style declared on the matched
element itself is never consulted.  Along that chain, each of the `top` and
`left` axes is taken from the nearest element whose inline style declares it
(first numeric token of the value, key matched case-insensitively, earliest
declaration of the key winning within one style), an axis once resolved is
never overwritten by a more distant ancestor, and the walk stops once both
axes are resolved. -/
theorem find_coordinates_parent_chain :
    (∀ e : ECtx,
      find_coordinates e =
        ((e.anc.filterMap (fun a => (parse_style (attrOf a "style")).1)).head?,
         (e.anc.filterMap (fun a => (parse_style (attrOf a "style")).2)).head?)) ∧
    parse_style (some "TOP: 12.5pt; Left: -3px") =
      (some (mkRat 25 2), some (-3)) ∧
    parse_style (some "top: 1; top: 2") = (some 1, none) := by
  refine ⟨?_, by decide, by decide⟩
  intro e
  rw [find_coordinates, fcWalk_eq]
  simp [Option.none_or]


theorem hmGet_hmInsert (m : List (String × String)) (k v key : String) :
    hmGet (hmInsert m k v) key = if key = k then some v else hmGet m key := by
  by_cases h : key = k
  · subst h
    simp [hmGet, hmInsert, List.find?_cons]
  · simp [hmGet, hmInsert, List.find?_cons, Ne.symm h, h]

theorem buildIndex_go (pairs : List DateCodePair) (m : List (String × String))
    (c : String) :
    hmGet (pairs.foldl (fun m p => hmInsert m p.code p.date) m) c =
      ((pairs.filter (fun p => p.code == c)).getLast?).elim (hmGet m c)
        (fun p => some p.date) := by
  induction pairs generalizing m with
  | nil => simp
  | cons p ps ih =>
    rw [List.foldl_cons, ih]
    by_cases hc : p.code = c
    · rw [List.filter_cons, if_pos (by simp [hc])]
      rw [List.getLast?_cons]
      cases hq : (ps.filter (fun p => p.code == c)).getLast? with
      | some q => simp [List.getLastD_eq_getLast?, hq]
      | none => simp [List.getLastD_eq_getLast?, hq, hmGet_hmInsert, hc]
    · rw [List.filter_cons, if_neg (by simp [hc])]
      cases hq : (ps.filter (fun p => p.code == c)).getLast? with
      | some q => simp [hq]
      | none =>
        simp only [hq, Option.elim, hmGet_hmInsert]
        rw [if_neg (fun h => hc h.symm)]

/-- C8: the code-to-date index maps each code to the date of the LAST pair
bearing that code in the document-level sequence order (page order, then
in-page rank order): a later pair deterministically overwrites an earlier
one. -/
theorem code_date_index_last_wins :
    ∀ (pairs : List DateCodePair) (c : String),
      hmGet (buildIndex pairs) c =
        ((pairs.filter (fun p => p.code == c)).getLast?).map (fun p => p.date) := by
  intro pairs c
  rw [buildIndex, buildIndex_go]
  cases hq : (pairs.filter (fun p => p.code == c)).getLast? with
  | some q => simp
  | none => simp [hmGet]

theorem enrich_nil_pairs (bs : List BarcodeData) :
    enrich_barcodes_with_dates bs [] = bs := by
  rw [enrich_barcodes_with_dates]
  have hid : ∀ b : BarcodeData,
      (match pagopa_qr_code_from_payload b.data with
        | some code =>
          match hmGet (buildIndex []) code with
          | some date_iso => ⟨b.rtype, b.data, some date_iso⟩
          | none => b
        | none => b) = b := by
    intro b
    cases pagopa_qr_code_from_payload b.data with
    | none => rfl
    | some code => simp [buildIndex, hmGet]
  calc bs.map _ = bs.map id := List.map_congr_left (fun b _ => hid b)
    _ = bs := List.map_id bs

/-- C9: if barcode decoding succeeded and the external markup conversion step
fails, the combined flow still returns the decoded barcode list successfully —
the failure degrades to an empty date-pair sequence, every barcode is returned
exactly as decoded (its `date` staying absent), and no conversion error reaches
the caller. -/
theorem conversion_failure_degrades :
    ∀ (bs : List BarcodeData) (mime e : String),
      process_file (Except.ok bs) mime (Except.error e) =
        Except.ok ⟨bs⟩ := by
  intro bs mime e
  rw [process_file]
  by_cases h : mime == "application/pdf" <;>
    simp [h, enrich_nil_pairs, pure, Except.pure] <;> rfl

/-- C10: the enrichment join never fails and touches only the `date` field:
every barcode of the input list reappears at its index with `type` and `data`
unchanged; its `date` becomes the indexed value exactly when the payload
yields a code present in the code-to-date index, and is otherwise left as it
was — in particular absent when it was absent, as decoded barcodes are
created. -/
theorem enrichment_frame :
    ∀ (bs : List BarcodeData) (pairs : List DateCodePair) (i : Nat)
      (b : BarcodeData), bs[i]? = some b →
      (enrich_barcodes_with_dates bs pairs).length = bs.length ∧
      ∃ b', (enrich_barcodes_with_dates bs pairs)[i]? = some b' ∧
        b'.rtype = b.rtype ∧ b'.data = b.data ∧
        b'.date = ((pagopa_qr_code_from_payload b.data).bind
          (fun code => hmGet (buildIndex pairs) code)).elim b.date some ∧
        (b.date = none →
          b'.date = (pagopa_qr_code_from_payload b.data).bind
            (fun code => hmGet (buildIndex pairs) code)) := by
  intro bs pairs i b hb
  refine ⟨by simp [enrich_barcodes_with_dates], ?_⟩
  rw [enrich_barcodes_with_dates]
  rw [List.getElem?_map, hb, Option.map_some']
  refine ⟨_, rfl, ?_⟩
  cases hex : pagopa_qr_code_from_payload b.data with
  | none =>
    dsimp only
    exact ⟨rfl, rfl, by simp, fun h => by simp [h]⟩
  | some code =>
    cases hget : hmGet (buildIndex pairs) code with
    | none =>
      dsimp only
      rw [hget]
      dsimp only
      exact ⟨rfl, rfl, by simp [hget], fun h => by simp [hget, h]⟩
    | some d =>
      dsimp only
      rw [hget]
      dsimp only
      exact ⟨rfl, rfl, by simp [hget], fun h => by simp [hget]⟩

theorem isDigit_toNat {c : Char} (h : c.isDigit = true) :
    48 ≤ c.toNat ∧ c.toNat ≤ 57 := by
  simp [Char.isDigit] at h
  exact h

theorem pad2_digitsVal {a b : Char} (ha : a.isDigit = true)
    (hb : b.isDigit = true) : pad2 (digitsVal [a, b]) = [a, b] := by
  obtain ⟨ha1, ha2⟩ := isDigit_toNat ha
  obtain ⟨hb1, hb2⟩ := isDigit_toNat hb
  have hv : digitsVal [a, b] = 10 * (a.toNat - 48) + (b.toNat - 48) := by
    simp [digitsVal]
  rw [pad2, hv]
  have e1 : 48 + (10 * (a.toNat - 48) + (b.toNat - 48)) / 10 % 10 = a.toNat := by
    omega
  have e2 : 48 + (10 * (a.toNat - 48) + (b.toNat - 48)) % 10 = b.toNat := by
    omega
  rw [e1, e2, Char.ofNat_toNat, Char.ofNat_toNat]

theorem pad4_digitsVal {a b c d : Char} (ha : a.isDigit = true)
    (hb : b.isDigit = true) (hc : c.isDigit = true) (hd : d.isDigit = true) :
    pad4 (digitsVal [a, b, c, d]) = [a, b, c, d] := by
  obtain ⟨ha1, ha2⟩ := isDigit_toNat ha
  obtain ⟨hb1, hb2⟩ := isDigit_toNat hb
  obtain ⟨hc1, hc2⟩ := isDigit_toNat hc
  obtain ⟨hd1, hd2⟩ := isDigit_toNat hd
  have hv : digitsVal [a, b, c, d] =
      1000 * (a.toNat - 48) + 100 * (b.toNat - 48) +
        10 * (c.toNat - 48) + (d.toNat - 48) := by
    simp [digitsVal]
    ring
  rw [pad4, hv]
  have e1 : 48 + (1000 * (a.toNat - 48) + 100 * (b.toNat - 48) +
      10 * (c.toNat - 48) + (d.toNat - 48)) / 1000 % 10 = a.toNat := by
    omega
  have e2 : 48 + (1000 * (a.toNat - 48) + 100 * (b.toNat - 48) +
      10 * (c.toNat - 48) + (d.toNat - 48)) / 100 % 10 = b.toNat := by
    omega
  have e3 : 48 + (1000 * (a.toNat - 48) + 100 * (b.toNat - 48) +
      10 * (c.toNat - 48) + (d.toNat - 48)) / 10 % 10 = c.toNat := by
    omega
  have e4 : 48 + (1000 * (a.toNat - 48) + 100 * (b.toNat - 48) +
      10 * (c.toNat - 48) + (d.toNat - 48)) % 10 = d.toNat := by
    omega
  rw [e1, e2, e3, e4, Char.ofNat_toNat, Char.ofNat_toNat, Char.ofNat_toNat,
    Char.ofNat_toNat]

theorem date_text_re_shape {l : List Char} (h : date_text_re l = true) :
    ∃ d1 d2 m1 m2 y1 y2 y3 y4 : Char,
      l = [d1, d2, '/', m1, m2, '/', y1, y2, y3, y4] ∧
      d1.isDigit = true ∧ d2.isDigit = true ∧ m1.isDigit = true ∧
      m2.isDigit = true ∧ y1.isDigit = true ∧ y2.isDigit = true ∧
      y3.isDigit = true ∧ y4.isDigit = true := by
  rw [date_text_re] at h
  cases h1 : takeDigits 2 l with
  | none => rw [h1] at h; simp at h
  | some p1 =>
    obtain ⟨d, r1⟩ := p1
    rw [h1] at h
    dsimp only at h
    cases h2 : expectChar '/' r1 with
    | none => rw [h2] at h; simp at h
    | some r2 =>
      rw [h2] at h
      dsimp only at h
      cases h3 : takeDigits 2 r2 with
      | none => rw [h3] at h; simp at h
      | some p3 =>
        obtain ⟨m, r3⟩ := p3
        rw [h3] at h
        dsimp only at h
        cases h4 : expectChar '/' r3 with
        | none => rw [h4] at h; simp at h
        | some r4 =>
          rw [h4] at h
          dsimp only at h
          cases h5 : takeDigits 4 r4 with
          | none => rw [h5] at h; simp at h
          | some p5 =>
            obtain ⟨y, r5⟩ := p5
            rw [h5] at h
            dsimp only at h
            cases r5 with
            | cons c t => simp [List.isEmpty] at h
            | nil =>
              obtain ⟨hd1, hd2, hd3⟩ := takeDigits_eq_some.mp h1
              obtain ⟨hm1, hm2, hm3⟩ := takeDigits_eq_some.mp h3
              obtain ⟨hy1, hy2, hy3⟩ := takeDigits_eq_some.mp h5
              rw [expectChar_eq_some] at h2 h4
              rcases d with - | ⟨a1, - | ⟨a2, - | ⟨a3, t⟩⟩⟩ <;> simp_all
              rcases m with - | ⟨b1, - | ⟨b2, - | ⟨b3, t⟩⟩⟩ <;> simp_all
              rcases y with - | ⟨c1, - | ⟨c2, - | ⟨c3, - | ⟨c4, - | ⟨c5, t⟩⟩⟩⟩⟩ <;>
                simp_all
              exact ⟨a1, a2, b1, b2, c1, c2, c3, c4, by simp, hd2.1, hd2.2,
                hm2.1, hm2.2, hy2.1, hy2.2.1, hy2.2.2.1, hy2.2.2.2⟩

/-- C5: the date normalizer, on a date-candidate's stripped value (a string
matched by the date grammar, hence of shape `DD/MM/YYYY` — part 2), succeeds
exactly on valid proleptic-Gregorian calendar dates (`validYmd`, chrono's
`from_ymd_opt`; day 32 and month 13 are rejected, as the concrete failing
inputs show), and on success renders midnight UTC of that date as the RFC 3339
timestamp `YYYY-MM-DDT00:00:00+00:00` (part 1).  A pair whose date fails to
parse is simply dropped from the document-level pair sequence, with no error
for the rest of the pipeline (part 3: the extraction is the total
filter-then-map). -/
theorem date_normalizer_exact :
    (∀ d1 d2 m1 m2 y1 y2 y3 y4 : Char,
      d1.isDigit = true → d2.isDigit = true → m1.isDigit = true →
      m2.isDigit = true → y1.isDigit = true → y2.isDigit = true →
      y3.isDigit = true → y4.isDigit = true →
      date_text_re [d1, d2, '/', m1, m2, '/', y1, y2, y3, y4] = true ∧
      parse_date_to_iso
          (String.mk [d1, d2, '/', m1, m2, '/', y1, y2, y3, y4]) =
        (if validYmd (digitsVal [y1, y2, y3, y4]) (digitsVal [m1, m2])
            (digitsVal [d1, d2])
         then some (String.mk ([y1, y2, y3, y4] ++ '-' :: ([m1, m2] ++ '-' ::
           ([d1, d2] ++ "T00:00:00+00:00".data))))
         else none)) ∧
    (∀ s : String, date_text_re s.data = true →
      ∃ d1 d2 m1 m2 y1 y2 y3 y4 : Char,
        s.data = [d1, d2, '/', m1, m2, '/', y1, y2, y3, y4] ∧
        d1.isDigit = true ∧ d2.isDigit = true ∧ m1.isDigit = true ∧
        m2.isDigit = true ∧ y1.isDigit = true ∧ y2.isDigit = true ∧
        y3.isDigit = true ∧ y4.isDigit = true) ∧
    (∀ doc : HNode,
      extract_dates_and_codes_from_html doc =
        ((process_pages doc).filter
          (fun p => (parse_date_to_iso p.1).isSome)).map
          (fun p => ⟨(parse_date_to_iso p.1).getD "", clean_text p.2⟩)) ∧
    parse_date_to_iso "32/01/2024" = none ∧
    parse_date_to_iso "01/13/2024" = none ∧
    parse_date_to_iso "29/02/2024" = some "2024-02-29T00:00:00+00:00" := by
  refine ⟨?_, fun s h => date_text_re_shape h, ?_, by decide, by decide, by decide⟩
  · intro d1 d2 m1 m2 y1 y2 y3 y4 hd1 hd2 hm1 hm2 hy1 hy2 hy3 hy4
    have w1 : isWsChar d1 = false := not_ws_of_isDigit hd1
    have wm1 : isWsChar m1 = false := not_ws_of_isDigit hm1
    have wy1 : isWsChar y1 = false := not_ws_of_isDigit hy1
    have w4 : isWsChar y4 = false := not_ws_of_isDigit hy4
    have slash1 : ('/').isDigit = false := by decide
    have q1 : ∀ c ∈ ([d1, d2] : List Char), c.isDigit = true := by
      intro c hc
      simp at hc
      rcases hc with rfl | rfl <;> simp_all
    have q2 : ∀ c ∈ ([m1, m2] : List Char), c.isDigit = true := by
      intro c hc
      simp at hc
      rcases hc with rfl | rfl <;> simp_all
    have q3 : ∀ c ∈ ([y1, y2, y3, y4] : List Char), c.isDigit = true := by
      intro c hc
      simp at hc
      rcases hc with rfl | rfl | rfl | rfl <;> simp_all
    constructor
    · rw [date_text_re]
      rw [show takeDigits 2 [d1, d2, '/', m1, m2, '/', y1, y2, y3, y4] =
        some ([d1, d2], '/' :: [m1, m2, '/', y1, y2, y3, y4]) from
        takeDigits_eq_some.mpr ⟨rfl, q1, rfl⟩]
      dsimp only
      rw [expectChar_eq_some.mpr rfl]
      dsimp only
      rw [show takeDigits 2 [m1, m2, '/', y1, y2, y3, y4] =
        some ([m1, m2], '/' :: [y1, y2, y3, y4]) from
        takeDigits_eq_some.mpr ⟨rfl, q2, rfl⟩]
      dsimp only
      rw [expectChar_eq_some.mpr rfl]
      dsimp only
      rw [show takeDigits 4 [y1, y2, y3, y4] =
        some ([y1, y2, y3, y4], ([] : List Char)) from
        takeDigits_eq_some.mpr ⟨rfl, q3, by simp⟩]
      dsimp only
      simp [List.isEmpty]
    · have htrim : trimWs [d1, d2, '/', m1, m2, '/', y1, y2, y3, y4] =
          [d1, d2, '/', m1, m2, '/', y1, y2, y3, y4] := by
        simp [trimWs, List.dropWhile_cons, w1, w4]
      have s1 : scanNumber 1 2 [d1, d2, '/', m1, m2, '/', y1, y2, y3, y4] =
          some (digitsVal [d1, d2], '/' :: [m1, m2, '/', y1, y2, y3, y4]) := by
        simp [scanNumber, List.takeWhile_cons, hd1, hd2, slash1]
      have s2 : scanNumber 1 2 [m1, m2, '/', y1, y2, y3, y4] =
          some (digitsVal [m1, m2], '/' :: [y1, y2, y3, y4]) := by
        simp [scanNumber, List.takeWhile_cons, hm1, hm2, slash1]
      have s3 : scanNumber 1 4 [y1, y2, y3, y4] =
          some (digitsVal [y1, y2, y3, y4], ([] : List Char)) := by
        simp [scanNumber, List.takeWhile_cons, hy1, hy2, hy3, hy4]
      rw [parse_date_to_iso]
      dsimp only
      rw [htrim]
      rw [show dropWs [d1, d2, '/', m1, m2, '/', y1, y2, y3, y4] =
        [d1, d2, '/', m1, m2, '/', y1, y2, y3, y4] from by
          simp [dropWs, List.dropWhile_cons, w1]]
      rw [s1]
      dsimp only
      rw [expectChar_eq_some.mpr rfl]
      dsimp only
      rw [show dropWs [m1, m2, '/', y1, y2, y3, y4] =
        [m1, m2, '/', y1, y2, y3, y4] from by
          simp [dropWs, List.dropWhile_cons, wm1]]
      rw [s2]
      dsimp only
      rw [expectChar_eq_some.mpr rfl]
      dsimp only
      rw [show dropWs [y1, y2, y3, y4] = [y1, y2, y3, y4] from by
        simp [dropWs, List.dropWhile_cons, wy1]]
      rw [s3]
      dsimp only
      by_cases hvalid : validYmd (digitsVal [y1, y2, y3, y4])
          (digitsVal [m1, m2]) (digitsVal [d1, d2]) = true
      · simp [hvalid, List.isEmpty, pad4_digitsVal hy1 hy2 hy3 hy4,
          pad2_digitsVal hm1 hm2, pad2_digitsVal hd1 hd2]
      · simp [hvalid, List.isEmpty]
  · intro doc
    rw [extract_dates_and_codes_from_html]
    induction process_pages doc with
    | nil => simp
    | cons p t ih =>
      cases hp : parse_date_to_iso p.1 with
      | none => simp [List.filterMap_cons, List.filter_cons, hp, ih]
      | some iso => simp [List.filterMap_cons, List.filter_cons, hp, ih]

/-- Witness for `date_normalizer_exact` at the concrete date 01/03/2024. -/
theorem date_normalizer_exact_witness :
    ('0'.isDigit = true ∧ '1'.isDigit = true ∧ '3'.isDigit = true ∧
      '2'.isDigit = true ∧ '4'.isDigit = true) ∧
    (date_text_re ['0', '1', '/', '0', '3', '/', '2', '0', '2', '4'] = true ∧
     parse_date_to_iso
         (String.mk ['0', '1', '/', '0', '3', '/', '2', '0', '2', '4']) =
       (if validYmd (digitsVal ['2', '0', '2', '4']) (digitsVal ['0', '3'])
           (digitsVal ['0', '1'])
        then some (String.mk (['2', '0', '2', '4'] ++ '-' :: (['0', '3'] ++ '-' ::
          (['0', '1'] ++ "T00:00:00+00:00".data))))
        else none)) ∧
    (date_text_re "01/03/2024".data = true ∧
     ∃ d1 d2 m1 m2 y1 y2 y3 y4 : Char,
       "01/03/2024".data = [d1, d2, '/', m1, m2, '/', y1, y2, y3, y4] ∧
       d1.isDigit = true ∧ d2.isDigit = true ∧ m1.isDigit = true ∧
       m2.isDigit = true ∧ y1.isDigit = true ∧ y2.isDigit = true ∧
       y3.isDigit = true ∧ y4.isDigit = true) :=
  ⟨⟨by decide, by decide, by decide, by decide, by decide⟩,
   date_normalizer_exact.1 '0' '1' '0' '3' '2' '0' '2' '4' (by decide)
     (by decide) (by decide) (by decide) (by decide) (by decide) (by decide)
     (by decide),
   by decide,
   date_normalizer_exact.2.1 "01/03/2024" (by decide)⟩

/-- Concrete decoded-barcode list used by the enrichment witness. -/
def wBars : List BarcodeData :=
  [⟨"QR_CODE", "PAGOPA|002|301122334455667788|12345678901|1", none⟩]

/-- Concrete pair list used by the enrichment witness. -/
def wPairs : List DateCodePair :=
  [⟨"2024-03-01T00:00:00+00:00", "301122334455667788"⟩]

/-- Witness for `enrichment_frame` at a concrete barcode and pair list. -/
theorem enrichment_frame_witness :
    wBars[0]? = some ⟨"QR_CODE", "PAGOPA|002|301122334455667788|12345678901|1",
      none⟩ ∧
    ((enrich_barcodes_with_dates wBars wPairs).length = wBars.length ∧
     ∃ b', (enrich_barcodes_with_dates wBars wPairs)[0]? = some b' ∧
       b'.rtype = "QR_CODE" ∧
       b'.data = "PAGOPA|002|301122334455667788|12345678901|1" ∧
       b'.date = ((pagopa_qr_code_from_payload
           "PAGOPA|002|301122334455667788|12345678901|1").bind
         (fun code => hmGet (buildIndex wPairs) code)).elim none some ∧
       ((none : Option String) = none →
         b'.date = (pagopa_qr_code_from_payload
             "PAGOPA|002|301122334455667788|12345678901|1").bind
           (fun code => hmGet (buildIndex wPairs) code))) :=
  ⟨by decide,
   enrichment_frame wBars wPairs 0
     ⟨"QR_CODE", "PAGOPA|002|301122334455667788|12345678901|1", none⟩
     (by decide)⟩

theorem zip_eq_rangeMap {α β γ δ : Type} (f : α → γ) (g : β → δ) (da : α)
    (db : β) :
    ∀ (l : List α) (r : List β),
      (l.zip r).map (fun p => (f p.1, g p.2)) =
        (List.range (min l.length r.length)).map
          (fun i => (f (l.getD i da), g (r.getD i db))) := by
  intro l
  induction l with
  | nil => intro r; simp
  | cons a t ih =>
    intro r
    cases r with
    | nil => simp
    | cons b u =>
      simp only [List.zip_cons_cons, List.map_cons, List.length_cons,
        Nat.succ_min_succ, List.range_succ_eq_map, List.getD_cons_zero,
        List.map_map]
      congr 1
      rw [ih u]
      apply List.map_congr_left
      intro i hi
      simp [Function.comp, List.getD_cons_succ]

/-- C2: the document-level pair sequence is the concatenation, over the pages
taken in ascending page-index order, of each page's own pairs: exactly
(dates[i], codes[i]) for i up to min(len(dates), len(codes)) - 1 when both
rank-ordered candidate lists are non-empty, and zero pairs when either list is
empty; candidates of different pages are never mixed. -/
theorem page_pairer_exact :
    ∀ doc : HNode,
      process_pages doc =
        (sortedPages doc).flatMap (fun pg =>
          if (collect_items_for_root pg.2 Kind.Date).isEmpty ||
              (collect_items_for_root pg.2 Kind.PagoPa).isEmpty then []
          else
            (List.range
              (min (collect_items_for_root pg.2 Kind.Date).length
                (collect_items_for_root pg.2 Kind.PagoPa).length)).map
              (fun i =>
                (((collect_items_for_root pg.2 Kind.Date).getD i default).val,
                 ((collect_items_for_root pg.2 Kind.PagoPa).getD i default).val))) ∧
      List.Pairwise (fun a b : Nat × ECtx => a.1 ≤ b.1) (sortedPages doc) ∧
      (sortedPages doc).Perm (pagesOf doc) := by
  intro doc
  refine ⟨?_, ?_, ?_⟩
  · rw [process_pages]
    congr 1
    funext pg
    by_cases h1 : (collect_items_for_root pg.2 Kind.Date).isEmpty <;>
      by_cases h2 : (collect_items_for_root pg.2 Kind.PagoPa).isEmpty <;>
        simp only [h1, h2, Bool.not_true, Bool.not_false, Bool.false_and,
          Bool.true_and, Bool.true_or, Bool.or_true, Bool.false_or,
          Bool.or_false, Bool.false_eq_true, if_false, if_true]
    exact zip_eq_rangeMap Item.val Item.val default default _ _
  · haveI : IsTotal (Nat × ECtx) (fun a b => a.1 ≤ b.1) :=
      ⟨fun a b => Nat.le_total a.1 b.1⟩
    haveI : IsTrans (Nat × ECtx) (fun a b => a.1 ≤ b.1) :=
      ⟨fun _ _ _ => Nat.le_trans⟩
    rw [sortedPages]
    exact List.sorted_insertionSort _ _
  · rw [sortedPages]
    exact List.perm_insertionSort _ _


/-- Invariant of the deduplicating fold of `collect_items_for_root`: after
processing the fragments `seen`, the map `m` has pairwise distinct keys, each
entry is keyed by its item's value, the keys are exactly the values seen, and
each entry holds a seen item of minimal score among the seen items with its
value. -/
def GoodMap (seen : List Item) (m : List (String × Item)) : Prop :=
  (m.map Prod.fst).Nodup ∧
  (∀ e ∈ m, e.2.val = e.1) ∧
  (∀ v : String, (∃ it ∈ seen, it.val = v) ↔ (∃ e ∈ m, e.1 = v)) ∧
  (∀ e ∈ m, e.2 ∈ seen ∧ ∀ it ∈ seen, it.val = e.1 → e.2.score ≤ it.score)

theorem goodMap_insert {seen : List Item} {m : List (String × Item)} {it : Item}
    (h : GoodMap seen m) : GoodMap (seen ++ [it]) (dedupInsert m it) := by
  obtain ⟨hnd, hkey, hiff, hmin⟩ := h
  rw [dedupInsert]
  by_cases hp : m.any (fun e => e.1 == it.val) = true
  · rw [if_pos hp]
    have hkeys : (m.map (fun e =>
        if e.1 == it.val && decide (it.score < e.2.score) then (e.1, it)
        else e)).map Prod.fst = m.map Prod.fst := by
      rw [List.map_map]
      apply List.map_congr_left
      intro e he
      by_cases hc : (e.1 == it.val && decide (it.score < e.2.score)) = true <;>
        simp [hc, Function.comp]
    obtain ⟨w, hw, hwv⟩ := List.any_eq_true.mp hp
    have hwv' : w.1 = it.val := by simpa using hwv
    refine ⟨by rw [hkeys]; exact hnd, ?_, ?_, ?_⟩
    · intro e' he'
      obtain ⟨e, he, hfe⟩ := List.mem_map.mp he'
      by_cases hc : (e.1 == it.val && decide (it.score < e.2.score)) = true
      · rw [if_pos hc] at hfe
        obtain ⟨hc1, -⟩ : e.1 = it.val ∧ it.score < e.2.score := by simpa using hc
        subst hfe
        exact hc1.symm
      · rw [if_neg hc] at hfe
        subst hfe
        exact hkey e he
    · intro v
      constructor
      · intro ⟨x, hx, hxv⟩
        rcases List.mem_append.mp hx with hx | hx
        · obtain ⟨e, he, he1⟩ := (hiff v).mp ⟨x, hx, hxv⟩
          refine ⟨(if e.1 == it.val && decide (it.score < e.2.score)
            then (e.1, it) else e), List.mem_map.mpr ⟨e, he, rfl⟩, ?_⟩
          by_cases hc : (e.1 == it.val && decide (it.score < e.2.score)) = true
          · rw [if_pos hc]
            exact he1
          · rw [if_neg hc]
            exact he1
        · have hxe : x = it := by simpa using hx
          refine ⟨(if w.1 == it.val && decide (it.score < w.2.score)
            then (w.1, it) else w), List.mem_map.mpr ⟨w, hw, rfl⟩, ?_⟩
          by_cases hc : (w.1 == it.val && decide (it.score < w.2.score)) = true
          · rw [if_pos hc]
            exact hwv'.trans (hxe ▸ hxv)
          · rw [if_neg hc]
            exact hwv'.trans (hxe ▸ hxv)
      · intro ⟨e', he', he1⟩
        obtain ⟨e, he, hfe⟩ := List.mem_map.mp he'
        have he1' : e.1 = v := by
          by_cases hc : (e.1 == it.val && decide (it.score < e.2.score)) = true
          · rw [if_pos hc] at hfe
            subst hfe
            obtain ⟨hc1, -⟩ : e.1 = it.val ∧ it.score < e.2.score := by
              simpa using hc
            exact he1
          · rw [if_neg hc] at hfe
            subst hfe
            exact he1
        obtain ⟨x, hx, hxv⟩ := (hiff v).mpr ⟨e, he, he1'⟩
        exact ⟨x, List.mem_append_left _ hx, hxv⟩
    · intro e' he'
      obtain ⟨e, he, hfe⟩ := List.mem_map.mp he'
      by_cases hc : (e.1 == it.val && decide (it.score < e.2.score)) = true
      · rw [if_pos hc] at hfe
        subst hfe
        obtain ⟨hc1', hc2'⟩ : e.1 = it.val ∧ it.score < e.2.score := by
          simpa using hc
        constructor
        · exact List.mem_append_right _ (by simp)
        · intro x hx hxv
          rcases List.mem_append.mp hx with hx | hx
          · have := (hmin e he).2 x hx (by simpa using hxv)
            exact le_trans (le_of_lt hc2') this
          · obtain rfl : x = it := by simpa using hx
            exact le_refl _
      · rw [if_neg hc] at hfe
        subst hfe
        constructor
        · exact List.mem_append_left _ (hmin e he).1
        · intro x hx hxv
          rcases List.mem_append.mp hx with hx | hx
          · exact (hmin e he).2 x hx hxv
          · have hxe : x = it := by simpa using hx
            rw [hxe] at hxv
            by_cases hv : e.1 = it.val
            · have hnlt : ¬ (it.score < e.2.score) := by
                intro hlt
                apply hc
                simp [hv, hlt]
              rw [hxe]
              exact le_of_not_lt hnlt
            · exact absurd hxv.symm hv
  · rw [if_neg hp]
    have hp' : m.any (fun e => e.1 == it.val) = false := by
      cases h : m.any (fun e => e.1 == it.val) with
      | true => exact absurd h hp
      | false => rfl
    have hnone : ∀ e ∈ m, e.1 ≠ it.val := by
      intro e he
      have := List.any_eq_false.mp hp' e he
      simpa using this
    refine ⟨?_, ?_, ?_, ?_⟩
    · rw [List.map_append]
      rw [List.nodup_append]
      refine ⟨hnd, by simp, ?_⟩
      intro a ha hb
      obtain ⟨e, he, rfl⟩ := List.mem_map.mp ha
      have he1 : e.1 = it.val := by simpa using hb
      exact hnone e he he1
    · intro e' he'
      rcases List.mem_append.mp he' with hem | hnew
      · exact hkey e' hem
      · obtain rfl : e' = (it.val, it) := by simpa using hnew
        rfl
    · intro v
      constructor
      · intro ⟨x, hx, hxv⟩
        rcases List.mem_append.mp hx with hxs | hxi
        · obtain ⟨e, he, he1⟩ := (hiff v).mp ⟨x, hxs, hxv⟩
          exact ⟨e, List.mem_append_left _ he, he1⟩
        · have hxe : x = it := by simpa using hxi
          exact ⟨(it.val, it), List.mem_append_right _ (by simp), hxe ▸ hxv⟩
      · intro ⟨e, he, he1⟩
        rcases List.mem_append.mp he with hem | hnew
        · obtain ⟨x, hx, hxv⟩ := (hiff v).mpr ⟨e, hem, he1⟩
          exact ⟨x, List.mem_append_left _ hx, hxv⟩
        · obtain rfl : e = (it.val, it) := by simpa using hnew
          exact ⟨it, List.mem_append_right _ (by simp), he1⟩
    · intro e' he'
      rcases List.mem_append.mp he' with hem | hnew
      · refine ⟨List.mem_append_left _ (hmin e' hem).1, ?_⟩
        intro x hx hxv
        rcases List.mem_append.mp hx with hxs | hxi
        · exact (hmin e' hem).2 x hxs hxv
        · have hxe : x = it := by simpa using hxi
          rw [hxe] at hxv
          exact absurd hxv.symm (hnone e' hem)
      · obtain rfl : e' = (it.val, it) := by simpa using hnew
        refine ⟨List.mem_append_right _ (by simp), ?_⟩
        intro x hx hxv
        rcases List.mem_append.mp hx with hxs | hxi
        · obtain ⟨e, he, he1⟩ := (hiff it.val).mp ⟨x, hxs, hxv⟩
          exact absurd he1 (hnone e he)
        · have hxe : x = it := by simpa using hxi
          rw [hxe]

theorem goodMap_foldl : ∀ (l seen : List Item) (m : List (String × Item)),
    GoodMap seen m → GoodMap (seen ++ l) (l.foldl dedupInsert m) := by
  intro l
  induction l with
  | nil => intro seen m h; simpa using h
  | cons a t ih =>
    intro seen m h
    have h2 := ih (seen ++ [a]) (dedupInsert m a) (goodMap_insert h)
    rw [List.foldl_cons]
    simpa [List.append_assoc] using h2

theorem goodMap_found (l : List Item) : GoodMap l (l.foldl dedupInsert []) := by
  have h0 : GoodMap [] [] := by
    refine ⟨by simp, by simp, ?_, by simp⟩
    intro v
    simp
  simpa using goodMap_foldl l [] [] h0

theorem dedupSort_props (found : List Item) :
    ((dedupSort found).map Item.val).Nodup ∧
    (∀ v : String, (∃ it ∈ found, it.val = v) ↔
      ∃ it ∈ dedupSort found, it.val = v) ∧
    (∀ it ∈ dedupSort found, it ∈ found ∧
      ∀ it2 ∈ found, it2.val = it.val → it.score ≤ it2.score) ∧
    List.Pairwise (fun a b : Item => a.score ≤ b.score) (dedupSort found) := by
  obtain ⟨hnd, hkey, hiff, hmin⟩ := goodMap_found found
  have hperm : dedupSort found |>.Perm
      ((found.foldl dedupInsert []).map (fun e => e.2)) := by
    rw [dedupSort]
    exact List.perm_insertionSort _ _
  refine ⟨?_, ?_, ?_, ?_⟩
  · have hvals : ((found.foldl dedupInsert []).map (fun e => e.2)).map Item.val =
        (found.foldl dedupInsert []).map Prod.fst := by
      rw [List.map_map]
      apply List.map_congr_left
      intro e he
      exact hkey e he
    have := (hperm.map Item.val).nodup_iff
    rw [this, hvals]
    exact hnd
  · intro v
    rw [hiff v]
    constructor
    · intro ⟨e, he, he1⟩
      exact ⟨e.2, hperm.mem_iff.mpr (List.mem_map.mpr ⟨e, he, rfl⟩),
        (hkey e he).trans he1⟩
    · intro ⟨x, hx, hxv⟩
      obtain ⟨e, he, rfl⟩ := List.mem_map.mp (hperm.mem_iff.mp hx)
      exact ⟨e, he, (hkey e he).symm.trans hxv⟩
  · intro x hx
    obtain ⟨e, he, rfl⟩ := List.mem_map.mp (hperm.mem_iff.mp hx)
    refine ⟨(hmin e he).1, ?_⟩
    intro it2 h2 h2v
    exact (hmin e he).2 it2 h2 (h2v.trans (hkey e he))
  · haveI : IsTotal Item (fun a b : Item => a.score ≤ b.score) :=
      ⟨fun a b => le_total a.score b.score⟩
    haveI : IsTrans Item (fun a b : Item => a.score ≤ b.score) :=
      ⟨fun _ _ _ => le_trans⟩
    rw [dedupSort]
    exact List.sorted_insertionSort _ _

/-- C6: within one page and one kind, the deduplicated candidate list has one
entry per distinct stripped value (no duplicates), that entry is one of the
matching fragments and carries the minimum score among the fragments with that
value, and the list is ordered ascending by score — so infinite-score
(unpositioned, `⊤`) entries sort last.  The concrete pair of fragments with
scores 5 and 12 and the same value keeps only the score-5 entry, in either
arrival order. -/
theorem dedup_keeps_min_and_sorts :
    (∀ (root : ECtx) (kind : Kind),
      ((collect_items_for_root root kind).map Item.val).Nodup ∧
      (∀ v : String, (∃ it ∈ foundItems root kind, it.val = v) ↔
        ∃ it ∈ collect_items_for_root root kind, it.val = v) ∧
      (∀ it ∈ collect_items_for_root root kind, it ∈ foundItems root kind ∧
        ∀ it2 ∈ foundItems root kind, it2.val = it.val →
          it.score ≤ it2.score) ∧
      List.Pairwise (fun a b : Item => a.score ≤ b.score)
        (collect_items_for_root root kind)) ∧
    dedupSort [⟨"x", ((5 : ℚ) : WithTop ℚ)⟩, ⟨"x", ((12 : ℚ) : WithTop ℚ)⟩] =
      [⟨"x", ((5 : ℚ) : WithTop ℚ)⟩] ∧
    dedupSort [⟨"x", ((12 : ℚ) : WithTop ℚ)⟩, ⟨"x", ((5 : ℚ) : WithTop ℚ)⟩] =
      [⟨"x", ((5 : ℚ) : WithTop ℚ)⟩] := by
  refine ⟨?_, by decide, by decide⟩
  intro root kind
  rw [collect_items_for_root]
  exact dedupSort_props (foundItems root kind)
